import Mathlib

/-!
Verification of the mobyclaw dashboard memory-compaction core
(`src/dashboard/server.py`): the section parser, relevance scorer,
token estimator, budget packer (`get_optimized_context`) and the
archival compactor (`compress_memory`).

Text is modelled as `List Char` (the Python code works on `str`).
File-system interaction is modelled by passing document contents as
parameters: a missing document is `Option.none`, the inner-state text
(the output of `get_inner_context`) is a plain parameter, and the
per-evaluation wall clock read by `datetime.now(timezone.utc)` is an
explicit `clock` parameter holding the formatted `YYYY-MM-DD` date.
-/

namespace Mobyclaw

/-- Python's `str.strip` whitespace set (ASCII portion). -/
def isPySpace (c : Char) : Bool :=
  c = ' ' || c = '\t' || c = '\n' || c = '\r' || c = Char.ofNat 11 || c = Char.ofNat 12

/-- Python `str.strip()`: drop leading and trailing whitespace. -/
def pyStrip (l : List Char) : List Char :=
  ((l.dropWhile isPySpace).reverse.dropWhile isPySpace).reverse

/-- Python `needle in haystack` substring test. -/
def containsSub (n : List Char) : List Char → Bool
  | [] => n.isPrefixOf []
  | c :: rest => n.isPrefixOf (c :: rest) || containsSub n rest

/-- Python `s.lower()` (per-character, ASCII-faithful). -/
def lower (l : List Char) : List Char := l.map Char.toLower

/-- Python `content.split("\n")`. -/
def splitNl : List Char → List (List Char)
  | [] => [[]]
  | c :: rest =>
    if c = '\n' then [] :: splitNl rest
    else
      match splitNl rest with
      | g :: gs => (c :: g) :: gs
      | [] => [[c]]

/-- Python `sep.join(parts)`. -/
def joinSep (sep : List Char) : List (List Char) → List Char
  | [] => []
  | [x] => x
  | x :: y :: rest => x ++ sep ++ joinSep sep (y :: rest)

/-- Python lexicographic string `<` (by code point). -/
def pyStrLt : List Char → List Char → Bool
  | [], [] => false
  | [], _ :: _ => true
  | _ :: _, [] => false
  | a :: as, b :: bs => if a = b then pyStrLt as bs else decide (a < b)

/-- Python `max` over a nonempty sequence (first element as seed). -/
def pyMaxFrom (h : List Char) (t : List (List Char)) : List Char :=
  t.foldl (fun acc d => if pyStrLt acc d then d else acc) h

/-- A parsed memory section: `{"header": ..., "body": ...}`. -/
structure MSection where
  header : List Char
  body : List Char
deriving DecidableEq, Repr

/-- Loop body of `parse_memory_sections` (server.py lines 615-640):
`cur` is `current_header`, `acc` is `current_body`. -/
def parseLoop : List (List Char) → Option (List Char) → List (List Char) → List MSection
  | [], cur, acc =>
    match cur with
    | none => []
    | some h => [⟨h, pyStrip (joinSep ['\n'] acc)⟩]
  | line :: rest, cur, acc =>
    if ("## ".toList).isPrefixOf line then
      match cur with
      | none => parseLoop rest (some (pyStrip (line.drop 3))) []
      | some h => ⟨h, pyStrip (joinSep ['\n'] acc)⟩ :: parseLoop rest (some (pyStrip (line.drop 3))) []
    else
      match cur with
      | none => parseLoop rest none acc
      | some h => parseLoop rest (some h) (acc ++ [line])

/-- `parse_memory_sections` (server.py lines 615-640). -/
def parse_memory_sections (content : List Char) : List MSection :=
  parseLoop (splitNl content) none []

/-- `estimate_tokens` (server.py lines 718-720): `len(text) // 4`. -/
def estimate_tokens (text : List Char) : Nat := text.length / 4

/-- One step of the non-overlapping scan of `re.findall(r'(\d{4}-\d{2}-\d{2})', ...)`
(server.py line 693): on a match, 10 characters are consumed; otherwise
the scan advances one character. -/
def findDates : List Char → List (List Char)
  | a1 :: a2 :: a3 :: a4 :: '-' :: b1 :: b2 :: '-' :: c1 :: c2 :: rest =>
    if a1.isDigit && a2.isDigit && a3.isDigit && a4.isDigit
        && b1.isDigit && b2.isDigit && c1.isDigit && c2.isDigit then
      [a1, a2, a3, a4, '-', b1, b2, '-', c1, c2] :: findDates rest
    else
      findDates (a2 :: a3 :: a4 :: '-' :: b1 :: b2 :: '-' :: c1 :: c2 :: rest)
  | _ :: rest => findDates rest
  | [] => []

/-- The text whose `YYYY-MM-DD` matches feed the recency score:
lowered header, a space, and the first 200 characters of the raw body
(server.py line 693). -/
def scoreDateInput (s : MSection) : List Char :=
  lower s.header ++ ' ' :: s.body.take 200

/-- Status-based scoring block (server.py lines 665-673), an if/elif chain
over the lowered body. -/
def statusScore (body : List Char) : Int :=
  if containsSub ("in progress".toList) body then 200
  else if containsSub ("status:** todo".toList) body || containsSub ("status:** planned".toList) body then 100
  else if containsSub ("status:** done".toList) body then 10
  else if containsSub ("status:** cancelled".toList) body then 5
  else 0

/-- Section-type scoring block (server.py lines 675-689), an if/elif chain
over the lowered header (the "active task" branch also looks at the body). -/
def typeScore (header body : List Char) : Int :=
  if containsSub ("active task".toList) header then
    (if containsSub ("in progress".toList) body then 300 else 20)
  else if containsSub ("sprint".toList) header || containsSub ("planned".toList) header then 80
  else if containsSub ("projects".toList) header then 90
  else if containsSub ("research".toList) header then 30
  else if containsSub ("feature".toList) header || containsSub ("ideas".toList) header then 25
  else 0

/-- Recency scoring block (server.py lines 691-703).  `now_str` is the
reference timestamp captured by the caller; `clock` is the `YYYY-MM-DD`
produced by the fresh `datetime.now(timezone.utc)` calls inside the
function (line 697's fallback and line 700's comparison). -/
def recScore (s : MSection) (now_str clock : List Char) : Int :=
  match findDates (scoreDateInput s) with
  | [] => 0
  | d :: ds =>
    let latest := pyMaxFrom d ds
    let today := if now_str ≠ [] then now_str.take 10 else clock
    if latest = today then 50
    else if ¬ (pyStrLt latest clock) then 30
    else 0

/-- Query keyword overlap (server.py lines 705-708): 40 points per query
word occurring as a substring of `full`. -/
def queryScore (query_words : List (List Char)) (full : List Char) : Int :=
  40 * (query_words.countP (fun w => containsSub w full) : Int)

/-- Body size penalty (server.py lines 710-713). -/
def sizePenalty (body : List Char) : Int :=
  if 2000 < body.length then -10 else 0

/-- `score_section` (server.py lines 643-715).  The always-include loop
returns 1000 as soon as one of "identity"/"user"/"preferences" occurs in
the lowered header; otherwise the additive blocks accumulate. -/
def score_section (s : MSection) (query_words : List (List Char)) (now_str clock : List Char) : Int :=
  let header := lower s.header
  let body := lower s.body
  let full := header ++ ' ' :: body
  if containsSub ("identity".toList) header then 1000
  else if containsSub ("user".toList) header then 1000
  else if containsSub ("preferences".toList) header then 1000
  else
    statusScore body + typeScore header body + recScore s now_str clock
      + queryScore query_words full + sizePenalty s.body

/-- Word characters for Python `\w` (ASCII portion). -/
def isWordCh (c : Char) : Bool := c.isAlphanum || c = '_'

/-- Python `re.split(r'\W+', q)`: splits on maximal runs of non-word
characters, keeping empty pieces at the boundaries. -/
def reSplitW : List Char → List (List Char)
  | [] => [[]]
  | c :: rest =>
    if isWordCh c then
      match reSplitW rest with
      | g :: gs => (c :: g) :: gs
      | [] => [[c]]
    else
      match rest with
      | [] => [[], []]
      | d :: _ => if isWordCh d then [] :: reSplitW rest else reSplitW rest

/-- Query tokenization in `get_optimized_context` (server.py lines 843-845):
lower-cased split words of length > 2; `None` and `""` queries give no words. -/
def queryWords (query : Option (List Char)) : List (List Char) :=
  match query with
  | none => []
  | some q => ((reSplitW q).filter (fun w => 2 < w.length)).map lower

/-- `DEFAULT_CONTEXT_BUDGET` (server.py line 31, default of the
`CONTEXT_BUDGET_TOKENS` environment variable). -/
def DEFAULT_CONTEXT_BUDGET : Nat := 1500

/-- The text of one section as assembled by the packer:
`f"## {s['header']}\n{s['body']}"` (server.py line 862). -/
def secText (s : MSection) : List Char :=
  "## ".toList ++ s.header ++ '\n' :: s.body

/-- Stable insertion (descending by key): an earlier element is placed
before later elements with an equal key, matching Python's stable
`sort(key=..., reverse=True)`. -/
def insertDescBy (key : α → Int) (x : α) : List α → List α
  | [] => [x]
  | y :: ys => if key x < key y then y :: insertDescBy key x ys else x :: y :: ys

/-- Stable sort, descending by key (server.py line 856). -/
def sortByDesc (key : α → Int) (l : List α) : List α :=
  l.foldr (insertDescBy key) []

/-- Stable insertion (ascending by key), matching Python's stable
`sort(key=...)`. -/
def insertAscBy (key : α → Nat) (x : α) : List α → List α
  | [] => [x]
  | y :: ys => if key y < key x then y :: insertAscBy key x ys else x :: y :: ys

/-- Stable sort, ascending by key (server.py line 874). -/
def sortByAsc (key : α → Nat) (l : List α) : List α :=
  l.foldr (insertAscBy key) []

/-- The packing loop of `get_optimized_context` (server.py lines 858-870):
walk the score-sorted list; skip a section if it would exceed the budget
and something is already included, otherwise include it. -/
def packGo (budget : Nat) : List (MSection × Int) → List (MSection × Int) → Nat →
    (List (MSection × Int) × Nat)
  | [], included, total => (included, total)
  | p :: rest, included, total =>
    let t := estimate_tokens (secText p.1)
    if budget < total + t ∧ included ≠ [] then packGo budget rest included total
    else packGo budget rest (included ++ [p]) (total + t)

/-- `section_order = {s["header"]: i for i, s in enumerate(sections)}` followed
by `.get(h, 999)` (server.py lines 873-874).  Dictionary building means the
LAST occurrence of a duplicated header wins. -/
def orderKey (sections : List MSection) (h : List Char) : Nat :=
  (sections.foldl (fun (acc : Nat × Nat) s =>
    (acc.1 + 1, if s.header = h then acc.1 else acc.2)) (0, 999)).2

/-- The result dictionary of `get_optimized_context` (server.py lines 889-898).
`sections` holds `(header, score, tokens)` triples. -/
structure CtxResult where
  sections : List (List Char × Int × Nat)
  total_tokens : Nat
  budget_tokens : Nat
  sections_included : Nat
  sections_total : Nat
  sections_pruned : Nat
  context : List Char
deriving DecidableEq, Repr

/-- The empty result returned for a missing or empty document
(server.py lines 828-831 and 837-840). -/
def emptyCtx (budget : Nat) : CtxResult :=
  ⟨[], 0, budget, 0, 0, 0, []⟩

/-- The inner-state heading prepended at server.py line 886. -/
def innerHeader : List Char := "## Inner State (right now)\n".toList

/-- Effective budget: `budget_tokens or DEFAULT_CONTEXT_BUDGET`
(server.py line 825) — a missing (`None`) and a zero budget both fall
back to the default. -/
def effBudget : Option Nat → Nat
  | some (n + 1) => n + 1
  | _ => DEFAULT_CONTEXT_BUDGET

/-- The main branch of `get_optimized_context` (server.py lines 842-898),
reached when the document parses into at least one section: score, sort
descending, pack greedily, restore document order, assemble the context
and prepend the inner-state block. -/
def buildCtx (budget : Nat) (sections : List MSection) (query_words : List (List Char))
    (inner_context now_str clock : List Char) : CtxResult :=
  let scored := sections.map (fun s => (s, score_section s query_words now_str clock))
  let sorted := sortByDesc (fun p => p.2) scored
  let packed := packGo budget sorted [] 0
  let included := packed.1
  let reordered := sortByAsc (fun p => orderKey sections p.1.header) included
  let context_text := joinSep ("\n\n".toList) (reordered.map (fun p => secText p.1))
  let context :=
    if inner_context.isEmpty then context_text
    else innerHeader ++ inner_context ++ "\n\n".toList ++ context_text
  let total :=
    if inner_context.isEmpty then packed.2
    else packed.2 + estimate_tokens inner_context + 10
  { sections := reordered.map (fun p => (p.1.header, p.2, estimate_tokens (secText p.1))),
    total_tokens := total,
    budget_tokens := budget,
    sections_included := included.length,
    sections_total := sections.length,
    sections_pruned := sections.length - included.length,
    context := context }

/-- `get_optimized_context` (server.py lines 807-898).
`mcontent` is the contents of MEMORY.md (`none` when the file is missing),
`inner_context` the string produced by `get_inner_context()`, and
`now_str`/`clock` the reference timestamp and the ambient wall-clock date
(see `recScore`). -/
def get_optimized_context (mcontent : Option (List Char)) (inner_context : List Char)
    (query : Option (List Char)) (budget_tokens : Option Nat)
    (now_str clock : List Char) : CtxResult :=
  let budget := effBudget budget_tokens
  match mcontent with
  | none => emptyCtx budget
  | some content =>
    let sections := parse_memory_sections content
    if sections.isEmpty then emptyCtx budget
    else buildCtx budget sections (queryWords query) inner_context now_str clock

/-! ### The archival compactor `compress_memory` (server.py lines 575-611)

The archival pattern (line 587) is
`(## Active Task \([^)]+\)\n\*\*Status:\*\* (?:DONE|CANCELLED)\n.*?)(?=\n## |\Z)`
compiled with `re.DOTALL` and scanned with `re.finditer`.  We model the
pattern directly: a "core" is the mandatory prefix up to and including
the status keyword and its newline; the lazy `.*?` then extends the
match to the first position where `\n## ` follows (or to the end of the
document).  `re.finditer` yields non-overlapping matches left to right,
resuming each scan at the previous match's end. -/

/-- The literal `## Active Task (` (16 characters). -/
def hdrLit : List Char := "## Active Task (".toList

/-- The literal `\n**Status:** ` (13 characters). -/
def stLit : List Char := "\n**Status:** ".toList

/-- Match `(?:DONE|CANCELLED)\n` at the head, returning the consumed length. -/
def statusKw (l : List Char) : Option Nat :=
  if ("DONE\n".toList).isPrefixOf l then some 5
  else if ("CANCELLED\n".toList).isPrefixOf l then some 10
  else none

/-- Match the mandatory core of the archival pattern at the head of `l`:
`## Active Task (` + one-or-more non-`)` characters + `)` + `\n**Status:** `
+ (`DONE` or `CANCELLED`) + `\n`.  Returns the number of characters
consumed.  (`[^)]+` is greedy but, matching a contiguous run of non-`)`
characters followed by a literal `)`, it has exactly one viable extent:
up to the first `)`.) -/
def matchCore (l : List Char) : Option Nat :=
  if hdrLit.isPrefixOf l then
    let rest1 := l.drop 16
    let span := rest1.takeWhile (fun c => c ≠ ')')
    if span.length = 0 then none
    else
      match rest1.drop span.length with
      | ')' :: rest3 =>
        if stLit.isPrefixOf rest3 then
          match statusKw (rest3.drop 13) with
          | some m => some (16 + span.length + 1 + 13 + m)
          | none => none
        else none
      | _ => none
  else none

/-- The lazy `.*?` extension: number of characters consumed until the
lookahead `(?=\n## |\Z)` first succeeds. -/
def lazyExt : List Char → Nat
  | [] => 0
  | c :: rest =>
    if ("\n## ".toList).isPrefixOf (c :: rest) then 0 else 1 + lazyExt rest

/-- Fuel-indexed `re.finditer` scan: try to match at each position,
consuming the whole match on success and one character on failure.
The fuel dominates the list length, so `findGoEnough` shows the result
is fuel-independent. -/
def findGo : Nat → List Char → Nat → List (Nat × Nat)
  | 0, _, _ => []
  | _ + 1, [], _ => []
  | n + 1, c :: rest, pos =>
    match matchCore (c :: rest) with
    | some k =>
      let e := k + lazyExt ((c :: rest).drop k)
      (pos, pos + e) :: findGo n ((c :: rest).drop e) (pos + e)
    | none => findGo n rest (pos + 1)

/-- All matches of the archival pattern, as half-open `(start, end)`
position pairs, in document order (`re.finditer`, server.py line 588). -/
def findMatches (l : List Char) : List (Nat × Nat) := findGo l.length l 0

/-- `new_content[:m.start()] + new_content[m.end():]` (server.py line 604). -/
def spliceOut (l : List Char) (s e : Nat) : List Char := l.take s ++ l.drop e

/-- Removal of all matched spans, iterating matches in reverse order
(server.py lines 602-604). -/
def removeMatches (l : List Char) (ms : List (Nat × Nat)) : List Char :=
  ms.reverse.foldl (fun acc m => spliceOut acc m.1 m.2) l

/-- `re.sub(r'\n{3,}', '\n\n', ...)` (server.py line 606): collapse every
run of three or more newlines to exactly two.  `k` counts the pending
newline run. -/
def collapseGo : Nat → List Char → List Char
  | k, [] => List.replicate (min k 2) '\n'
  | k, '\n' :: rest => collapseGo (k + 1) rest
  | k, c :: rest => List.replicate (min k 2) '\n' ++ c :: collapseGo 0 rest

def collapseNewlines (l : List Char) : List Char := collapseGo 0 l

/-- `compress_memory` (server.py lines 575-611), modelled on the document
contents: returns the reported `archived` count and the rewritten live
document.  With no matches nothing is archived and the document is left
untouched; otherwise all matched spans are removed (in reverse order) and
newline runs are collapsed before the document is written back. -/
def compress_memory (content : List Char) : Nat × List Char :=
  let ms := findMatches content
  if ms.isEmpty then (0, content)
  else (ms.length, collapseNewlines (removeMatches content ms))


/-! ### Concrete documents used in counterexamples and witnesses -/

/-- Reference timestamp used for concrete evaluations. -/
def nowRef : List Char := "2026-10-12T00:00:00".toList

/-- Ambient wall-clock date used for concrete evaluations. -/
def clockRef : List Char := "2026-10-12".toList

/-- Two sections whose headers both contain "identity". -/
def docC1 : List Char := "## identity A\nxxxx\n## identity B\nyyyy".toList

/-- Two sections with the same header "D"; the second scores higher. -/
def docC2 : List Char := "## D\nalpha\n## D\nin progress".toList

/-- Four sections with strictly decreasing scores and estimated token
sizes 4, 10, 3, 3 in score order. -/
def docC3 : List Char :=
  ("## A\nin progress\n## Projects\n" ++ String.mk (List.replicate 28 'x')
    ++ "\n## Research\n## Ideas\nabc").toList

/-- A DONE Active Task followed by an IN PROGRESS Active Task whose body
contains a run of three newlines. -/
def docC5 : List Char :=
  "## Active Task (a)\n**Status:** DONE\nd\n## Active Task (b)\n**Status:** IN PROGRESS\nx\n\n\ny".toList

/-- The full text of the IN PROGRESS section of `docC5`. -/
def secPC5 : List Char := "## Active Task (b)\n**Status:** IN PROGRESS\nx\n\n\ny".toList

/-- A document in which `## Active Task (` occurs mid-line: the text
before the mid-line occurrence becomes a fresh archivable section after
the first removal. -/
def docC6 : List Char :=
  "## Active Task (x)\n**Status:** DONE## Active Task (B)\n**Status:** DONE\nbody\n## Other\nz".toList

/-- An Active Task section with a blank line between the header and the
status line. -/
def docC7 : List Char := "## Active Task (x)\n\n**Status:** DONE\nb".toList

/-- A section carrying a future date. -/
def secC8 : MSection := ⟨"Notes".toList, "2030-01-01".toList⟩


/-- Total estimated tokens of all sections of a document (as packed). -/
def sumTokens (secs : List MSection) : Nat :=
  (secs.map (fun s => estimate_tokens (secText s))).sum

/-- One identity section together with a low-scoring section. -/
def docC1W : List Char := "## identity A\nxx\n## Other\nyy".toList

/-- The identity section of `docC1W`. -/
def secC1W : MSection := ⟨"identity A".toList, "xx".toList⟩


/-- The maximal extracted date, when any date was extracted
(`max(date_matches)`, server.py line 696). -/
def maxDateOf : List (List Char) → Option (List Char)
  | [] => none
  | d :: ds => some (pyMaxFrom d ds)

/-- A section whose only date equals the reference date. -/
def secC8W : MSection := ⟨"Log".toList, "2026-10-12".toList⟩

/-! ### Definitions used by the compactor analysis -/

def findFrom (l : List Char) (pos : Nat) : List (Nat × Nat) := findGo l.length l pos

def taskSec (a st b : List Char) : List Char :=
  hdrLit ++ a ++ [')'] ++ stLit ++ st ++ ['\n'] ++ b

def NoNlNl (l : List Char) : Prop :=
  List.Chain' (fun a b => ¬(a = '\n' ∧ b = '\n')) l

/-! ### General lemmas -/

theorem matchCore_pos {l : List Char} {k : Nat} (h : matchCore l = some k) : 1 ≤ k := by
  unfold matchCore at h
  dsimp only at h
  split at h
  · split at h
    · exact absurd h (by simp)
    · split at h
      · split at h
        · split at h
          · rw [Option.some_inj] at h
            omega
          · exact absurd h (by simp)
        · exact absurd h (by simp)
      · exact absurd h (by simp)
  · exact absurd h (by simp)

theorem findGoEnough : ∀ (n m : Nat) (l : List Char) (pos : Nat),
    l.length ≤ n → l.length ≤ m → findGo n l pos = findGo m l pos := by
  intro n
  induction n with
  | zero =>
    intro m l pos hn _
    have : l = [] := List.length_eq_zero.mp (Nat.le_zero.mp hn)
    subst this
    cases m <;> rfl
  | succ n ih =>
    intro m l pos hn hm
    cases l with
    | nil => cases m <;> rfl
    | cons c rest =>
      cases m with
      | zero => simp at hm
      | succ m' =>
        simp only [findGo]
        cases h : matchCore (c :: rest) with
        | some k =>
          simp only []
          have hk := matchCore_pos h
          have hlen : ((c :: rest).drop (k + lazyExt ((c :: rest).drop k))).length ≤ n := by
            simp only [List.length_drop, List.length_cons]
            simp only [List.length_cons] at hn
            omega
          have hlen' : ((c :: rest).drop (k + lazyExt ((c :: rest).drop k))).length ≤ m' := by
            simp only [List.length_drop, List.length_cons]
            simp only [List.length_cons] at hm
            omega
          rw [ih m' _ _ hlen hlen']
        | none =>
          simp only []
          have h1 : rest.length ≤ n := by simp only [List.length_cons] at hn; omega
          have h2 : rest.length ≤ m' := by simp only [List.length_cons] at hm; omega
          exact ih m' rest (pos + 1) h1 h2



theorem statusScore_nonneg (body : List Char) : 0 ≤ statusScore body := by
  unfold statusScore
  split_ifs <;> norm_num

theorem typeScore_nonneg (header body : List Char) : 0 ≤ typeScore header body := by
  unfold typeScore
  split_ifs <;> norm_num

theorem recScore_nonneg (s : MSection) (now_str clock : List Char) :
    0 ≤ recScore s now_str clock := by
  unfold recScore
  cases findDates (scoreDateInput s) with
  | nil => norm_num
  | cons d ds =>
    dsimp only
    split_ifs <;> norm_num

theorem queryScore_nonneg (qw : List (List Char)) (full : List Char) :
    0 ≤ queryScore qw full := by
  unfold queryScore
  positivity

theorem sizePenalty_ge (body : List Char) : -10 ≤ sizePenalty body := by
  unfold sizePenalty
  split_ifs <;> norm_num

theorem packGo_keeps (budget : Nat) :
    ∀ (l inc : List (MSection × Int)) (tot : Nat) (x : MSection × Int),
      x ∈ inc → x ∈ (packGo budget l inc tot).1 := by
  intro l
  induction l with
  | nil => intro inc tot x hx; exact hx
  | cons p rest ih =>
    intro inc tot x hx
    unfold packGo
    dsimp only
    split
    · exact ih inc tot x hx
    · exact ih (inc ++ [p]) _ x (List.mem_append_left _ hx)

theorem packGo_ne_nil (budget : Nat) (l inc : List (MSection × Int)) (tot : Nat)
    (h : l ≠ [] ∨ inc ≠ []) : (packGo budget l inc tot).1 ≠ [] := by
  cases inc with
  | cons q qs =>
    exact List.ne_nil_of_mem
      (packGo_keeps budget l (q :: qs) tot q (List.mem_cons_self q qs))
  | nil =>
    cases l with
    | nil => simp at h
    | cons p rest =>
      unfold packGo
      dsimp only
      rw [if_neg (by simp)]
      exact List.ne_nil_of_mem
        (packGo_keeps budget rest ([] ++ [p]) _ p (by simp))

theorem insertDescBy_perm (key : α → Int) (x : α) :
    ∀ l : List α, List.Perm (insertDescBy key x l) (x :: l) := by
  intro l
  induction l with
  | nil => rfl
  | cons y ys ih =>
    unfold insertDescBy
    split
    · exact (ih.cons y).trans (List.Perm.swap x y ys)
    · rfl

theorem sortByDesc_perm (key : α → Int) : ∀ l : List α, List.Perm (sortByDesc key l) l := by
  intro l
  induction l with
  | nil => rfl
  | cons x xs ih =>
    exact (insertDescBy_perm key x (sortByDesc key xs)).trans (ih.cons x)

theorem insertAscBy_perm (key : α → Nat) (x : α) :
    ∀ l : List α, List.Perm (insertAscBy key x l) (x :: l) := by
  intro l
  induction l with
  | nil => rfl
  | cons y ys ih =>
    unfold insertAscBy
    split
    · exact (ih.cons y).trans (List.Perm.swap x y ys)
    · rfl

theorem sortByAsc_perm (key : α → Nat) : ∀ l : List α, List.Perm (sortByAsc key l) l := by
  intro l
  induction l with
  | nil => rfl
  | cons x xs ih =>
    exact (insertAscBy_perm key x (sortByAsc key xs)).trans (ih.cons x)

theorem secText_ne_nil (s : MSection) : secText s ≠ [] := by
  simp [secText]

theorem joinSep_ne_nil (sep : List Char) (p : List Char) (ps : List (List Char))
    (hp : p ≠ []) : joinSep sep (p :: ps) ≠ [] := by
  cases ps with
  | nil => exact hp
  | cons q r =>
    unfold joinSep
    simp [hp]

theorem buildCtx_nonempty (budget : Nat) (sections : List MSection)
    (qw : List (List Char)) (inner now clock : List Char) (h : sections ≠ []) :
    (buildCtx budget sections qw inner now clock).context ≠ [] ∧
    0 < (buildCtx budget sections qw inner now clock).sections_included := by
  have hscored : sections.map (fun s => (s, score_section s qw now clock)) ≠ [] := by
    simpa using h
  have hsorted : sortByDesc (fun p => p.2)
      (sections.map (fun s => (s, score_section s qw now clock))) ≠ [] := by
    intro hn
    have hperm := sortByDesc_perm (fun p : MSection × Int => p.2)
      (sections.map (fun s => (s, score_section s qw now clock)))
    rw [hn] at hperm
    exact hscored hperm.symm.eq_nil
  have hinc : (packGo budget (sortByDesc (fun p => p.2)
      (sections.map (fun s => (s, score_section s qw now clock)))) [] 0).1 ≠ [] :=
    packGo_ne_nil budget _ [] 0 (Or.inl hsorted)
  have hreord : sortByAsc (fun p => orderKey sections p.1.header)
      (packGo budget (sortByDesc (fun p => p.2)
        (sections.map (fun s => (s, score_section s qw now clock)))) [] 0).1 ≠ [] := by
    intro hn
    have hperm := sortByAsc_perm (fun p : MSection × Int => orderKey sections p.1.header)
      (packGo budget (sortByDesc (fun p => p.2)
        (sections.map (fun s => (s, score_section s qw now clock)))) [] 0).1
    rw [hn] at hperm
    exact hinc hperm.symm.eq_nil
  constructor
  · show (if inner.isEmpty then _ else _) ≠ []
    obtain ⟨x, xs, hx⟩ := List.exists_cons_of_ne_nil hreord
    by_cases hi : inner.isEmpty
    · rw [if_pos hi, hx]
      exact joinSep_ne_nil _ _ _ (secText_ne_nil x.1)
    · rw [if_neg hi]
      simp [innerHeader]
  · show 0 < (packGo budget (sortByDesc (fun p => p.2)
      (sections.map (fun s => (s, score_section s qw now clock)))) [] 0).1.length
    exact List.length_pos.mpr hinc


theorem score_identity (s : MSection) (qw : List (List Char)) (now clock : List Char)
    (h : containsSub ("identity".toList) (lower s.header) = true) :
    score_section s qw now clock = 1000 := by
  unfold score_section
  dsimp only
  rw [if_pos h]

theorem sortByDesc_head_max (key : α → Int) :
    ∀ l : List α, l ≠ [] →
      ∃ m t, sortByDesc key l = m :: t ∧ m ∈ l ∧ ∀ p ∈ l, key p ≤ key m := by
  intro l
  induction l with
  | nil => intro h; exact absurd rfl h
  | cons x xs ih =>
    intro _
    by_cases hxs : xs = []
    · subst hxs
      refine ⟨x, [], rfl, by simp, ?_⟩
      intro p hp
      simp at hp
      rw [hp]
    · obtain ⟨m, t, hsort, hm, hmax⟩ := ih hxs
      have hstep : sortByDesc key (x :: xs) = insertDescBy key x (m :: t) := by
        show insertDescBy key x (sortByDesc key xs) = _
        rw [hsort]
      by_cases hlt : key x < key m
      · refine ⟨m, insertDescBy key x t, ?_, List.mem_cons_of_mem x hm, ?_⟩
        · rw [hstep]
          show insertDescBy key x (m :: t) = m :: insertDescBy key x t
          simp only [insertDescBy]
          rw [if_pos hlt]
        · intro p hp
          rcases List.mem_cons.mp hp with hp | hp
          · rw [hp]; exact le_of_lt hlt
          · exact hmax p hp
      · refine ⟨x, m :: t, ?_, List.mem_cons_self x xs, ?_⟩
        · rw [hstep]
          show insertDescBy key x (m :: t) = x :: m :: t
          simp only [insertDescBy]
          rw [if_neg hlt]
        · intro p hp
          rcases List.mem_cons.mp hp with hp | hp
          · rw [hp]
          · exact le_trans (hmax p hp) (not_lt.mp hlt)

theorem buildCtx_unique_max_mem (budget : Nat) (sections : List MSection)
    (qw : List (List Char)) (inner now clock : List Char) (s : MSection)
    (hmem : s ∈ sections)
    (hsc : score_section s qw now clock = 1000)
    (hmax : ∀ u ∈ sections, u ≠ s → score_section u qw now clock < 1000) :
    s.header ∈ (buildCtx budget sections qw inner now clock).sections.map
      (fun e => e.1) := by
  have hsne : sections.map (fun u => (u, score_section u qw now clock)) ≠ [] := by
    have : sections ≠ [] := List.ne_nil_of_mem hmem
    simpa using this
  obtain ⟨m, t, hsort, hm, hmax'⟩ :=
    sortByDesc_head_max (fun p => p.2)
      (sections.map (fun u => (u, score_section u qw now clock))) hsne
  obtain ⟨u, hu, hueq⟩ := List.mem_map.mp hm
  have hus : u = s := by
    by_contra hne'
    have hkey : m.2 = score_section u qw now clock := by rw [← hueq]
    have h2 := hmax' (s, score_section s qw now clock)
      (List.mem_map_of_mem _ hmem)
    dsimp at h2
    rw [hkey, hsc] at h2
    have h1 := hmax u hu hne'
    omega
  have hms : m = (s, score_section s qw now clock) := by
    rw [← hueq, hus]
  have hpack : m ∈ (packGo budget (m :: t) [] 0).1 := by
    unfold packGo
    dsimp only
    rw [if_neg (by simp)]
    exact packGo_keeps budget t ([] ++ [m]) _ m (by simp)
  have hpack' : m ∈ (packGo budget (sortByDesc (fun p => p.2)
      (sections.map (fun u => (u, score_section u qw now clock)))) [] 0).1 := by
    rw [hsort]
    exact hpack
  have hperm := sortByAsc_perm (fun p : MSection × Int => orderKey sections p.1.header)
    (packGo budget (sortByDesc (fun p => p.2)
      (sections.map (fun u => (u, score_section u qw now clock)))) [] 0).1
  have hreord : m ∈ sortByAsc (fun p : MSection × Int => orderKey sections p.1.header)
      (packGo budget (sortByDesc (fun p => p.2)
        (sections.map (fun u => (u, score_section u qw now clock)))) [] 0).1 :=
    hperm.mem_iff.mpr hpack'
  show s.header ∈ (List.map (fun p : MSection × Int => (p.1.header, p.2,
      estimate_tokens (secText p.1)))
    (sortByAsc (fun p : MSection × Int => orderKey sections p.1.header)
      (packGo budget (sortByDesc (fun p => p.2)
        (sections.map (fun u => (u, score_section u qw now clock)))) [] 0).1)).map
    (fun e => e.1)
  rw [List.map_map]
  refine List.mem_map.mpr ⟨m, hreord, ?_⟩
  rw [hms]
  rfl

theorem packGo_all (budget : Nat) :
    ∀ (l inc : List (MSection × Int)) (tot : Nat),
      tot + (l.map (fun p => estimate_tokens (secText p.1))).sum ≤ budget →
      packGo budget l inc tot =
        (inc ++ l, tot + (l.map (fun p => estimate_tokens (secText p.1))).sum) := by
  intro l
  induction l with
  | nil => intro inc tot h; simp [packGo]
  | cons p rest ih =>
    intro inc tot h
    simp only [List.map_cons, List.sum_cons] at h
    unfold packGo
    dsimp only
    rw [if_neg (by rintro ⟨hlt, _⟩; omega)]
    rw [ih (inc ++ [p]) (tot + estimate_tokens (secText p.1)) (by omega)]
    simp [List.append_assoc]
    omega

theorem packGo_sublist (budget : Nat) :
    ∀ (l inc : List (MSection × Int)) (tot : Nat),
      ∃ e, (packGo budget l inc tot).1 = inc ++ e ∧ e.Sublist l := by
  intro l
  induction l with
  | nil => intro inc tot; exact ⟨[], by simp [packGo], List.nil_sublist _⟩
  | cons p rest ih =>
    intro inc tot
    unfold packGo
    dsimp only
    split
    · obtain ⟨e, he, hs⟩ := ih inc tot
      exact ⟨e, he, hs.cons p⟩
    · obtain ⟨e, he, hs⟩ := ih (inc ++ [p]) (tot + estimate_tokens (secText p.1))
      refine ⟨p :: e, ?_, hs.cons₂ p⟩
      rw [he, List.append_assoc]
      rfl

theorem sortedTokenSum (sections : List MSection) (qw : List (List Char))
    (now clock : List Char) :
    ((sortByDesc (fun p => p.2)
      (sections.map (fun s => (s, score_section s qw now clock)))).map
        (fun p => estimate_tokens (secText p.1))).sum = sumTokens sections := by
  have hperm := sortByDesc_perm (fun p : MSection × Int => p.2)
    (sections.map (fun s => (s, score_section s qw now clock)))
  rw [(hperm.map (fun p => estimate_tokens (secText p.1))).sum_eq]
  rw [List.map_map]
  rfl

theorem buildCtx_included_le_total (budget : Nat) (sections : List MSection)
    (qw : List (List Char)) (inner now clock : List Char) :
    (buildCtx budget sections qw inner now clock).sections_included ≤
      (buildCtx budget sections qw inner now clock).sections_total := by
  show (packGo budget (sortByDesc (fun p => p.2)
      (sections.map (fun s => (s, score_section s qw now clock)))) [] 0).1.length ≤
    sections.length
  obtain ⟨e, he, hs⟩ := packGo_sublist budget (sortByDesc (fun p => p.2)
    (sections.map (fun s => (s, score_section s qw now clock)))) [] 0
  rw [he]
  simp only [List.nil_append]
  calc e.length ≤ (sortByDesc (fun p => p.2)
      (sections.map (fun s => (s, score_section s qw now clock)))).length := hs.length_le
    _ = (sections.map (fun s => (s, score_section s qw now clock))).length :=
        (sortByDesc_perm _ _).length_eq
    _ = sections.length := List.length_map _ _

theorem buildCtx_all_included (budget : Nat) (sections : List MSection)
    (qw : List (List Char)) (inner now clock : List Char)
    (h : sumTokens sections ≤ budget) :
    (buildCtx budget sections qw inner now clock).sections_included =
      (buildCtx budget sections qw inner now clock).sections_total := by
  show (packGo budget (sortByDesc (fun p => p.2)
      (sections.map (fun s => (s, score_section s qw now clock)))) [] 0).1.length =
    sections.length
  rw [packGo_all budget _ [] 0 (by rw [sortedTokenSum]; omega)]
  simp only [List.nil_append]
  calc (sortByDesc (fun p => p.2)
      (sections.map (fun s => (s, score_section s qw now clock)))).length
      = (sections.map (fun s => (s, score_section s qw now clock))).length :=
        (sortByDesc_perm _ _).length_eq
    _ = sections.length := List.length_map _ _

theorem effBudget_pos (b : Nat) (hb : 0 < b) : effBudget (some b) = b := by
  cases b with
  | zero => omega
  | succ n => rfl

theorem orderKey_foldl_no_match (h : List Char) :
    ∀ (l : List MSection) (n d : Nat), (∀ s ∈ l, s.header ≠ h) →
      (l.foldl (fun (acc : Nat × Nat) s =>
        (acc.1 + 1, if s.header = h then acc.1 else acc.2)) (n, d)).2 = d := by
  intro l
  induction l with
  | nil => intro n d _; rfl
  | cons s0 rest ih =>
    intro n d hall
    simp only [List.foldl_cons]
    rw [if_neg (hall s0 (List.mem_cons_self s0 rest))]
    exact ih (n + 1) d (fun s hs => hall s (List.mem_cons_of_mem s0 hs))

theorem orderKey_foldl_found (h : List Char) :
    ∀ (l : List MSection) (n d : Nat) (i : Nat) (hi : i < l.length),
      (l.map (fun s => s.header)).Nodup →
      (l.get ⟨i, hi⟩).header = h →
      (l.foldl (fun (acc : Nat × Nat) s =>
        (acc.1 + 1, if s.header = h then acc.1 else acc.2)) (n, d)).2 = n + i := by
  intro l
  induction l with
  | nil => intro n d i hi _ _; simp at hi
  | cons s0 rest ih =>
    intro n d i hi hnd hget
    simp only [List.map_cons, List.nodup_cons] at hnd
    obtain ⟨hnotin, hnd'⟩ := hnd
    cases i with
    | zero =>
      simp only [List.get] at hget
      simp only [List.foldl_cons]
      rw [if_pos hget]
      rw [orderKey_foldl_no_match h rest (n + 1) n]
      · omega
      · intro s hs hsh
        refine hnotin ?_
        rw [hget, ← hsh]
        exact List.mem_map_of_mem _ hs
    | succ j =>
      simp only [List.get] at hget
      have hjlt : j < rest.length := by simpa using hi
      have hs0 : s0.header ≠ h := by
        intro heq
        apply hnotin
        rw [heq, ← hget]
        exact List.mem_map_of_mem _ (List.get_mem rest j hjlt)
      simp only [List.foldl_cons]
      rw [if_neg hs0]
      rw [ih (n + 1) d j hjlt hnd' hget]
      omega

theorem orderKey_eq_of_nodup (sections : List MSection)
    (hnd : (sections.map (fun s => s.header)).Nodup)
    (i : Nat) (hi : i < sections.length) :
    orderKey sections (sections.get ⟨i, hi⟩).header = i := by
  unfold orderKey
  rw [orderKey_foldl_found _ sections 0 999 i hi hnd rfl]
  omega

theorem insertAscBy_pairwise (key : α → Nat) (x : α) :
    ∀ l : List α, l.Pairwise (fun a b => key a ≤ key b) →
      (insertAscBy key x l).Pairwise (fun a b => key a ≤ key b) := by
  intro l
  induction l with
  | nil =>
    intro _
    show ([x] : List α).Pairwise _
    simp
  | cons y ys ih =>
    intro hp
    rw [List.pairwise_cons] at hp
    obtain ⟨hy, hys⟩ := hp
    unfold insertAscBy
    split
    · rename_i hlt
      rw [List.pairwise_cons]
      constructor
      · intro z hz
        have := (insertAscBy_perm key x ys).mem_iff.mp hz
        rcases List.mem_cons.mp this with hz' | hz'
        · rw [hz']; exact le_of_lt hlt
        · exact hy z hz'
      · exact ih hys
    · rename_i hnlt
      rw [List.pairwise_cons]
      constructor
      · intro z hz
        rcases List.mem_cons.mp hz with hz' | hz'
        · rw [hz']; omega
        · exact le_trans (by omega) (hy z hz')
      · exact List.pairwise_cons.mpr ⟨hy, hys⟩

theorem sortByAsc_pairwise (key : α → Nat) :
    ∀ l : List α, (sortByAsc key l).Pairwise (fun a b => key a ≤ key b) := by
  intro l
  induction l with
  | nil => simp [sortByAsc]
  | cons x xs ih => exact insertAscBy_pairwise key x (sortByAsc key xs) ih

theorem map_getD_range (l : List α) (d : α) :
    (List.range l.length).map (fun i => l.getD i d) = l := by
  induction l with
  | nil => rfl
  | cons x xs ih =>
    show (List.range (xs.length + 1)).map (fun i => (x :: xs).getD i d) = x :: xs
    rw [List.range_succ_eq_map]
    simp only [List.map_cons, List.map_map]
    have hcomp : ((fun i => (x :: xs).getD i d) ∘ Nat.succ) = fun i => xs.getD i d := by
      funext i
      simp [List.getD_cons_succ]
    rw [hcomp, ih]
    rfl

theorem buildCtx_order_sublist (budget : Nat) (sections : List MSection)
    (qw : List (List Char)) (inner now clock : List Char)
    (hnd : (sections.map (fun s => s.header)).Nodup) :
    ((buildCtx budget sections qw inner now clock).sections.map (fun e => e.1)).Sublist
      (sections.map (fun s => s.header)) := by
  show (((sortByAsc (fun p : MSection × Int => orderKey sections p.1.header)
      (packGo budget (sortByDesc (fun p => p.2)
        (sections.map (fun s => (s, score_section s qw now clock)))) [] 0).1).map
      (fun p => (p.1.header, p.2, estimate_tokens (secText p.1)))).map
      (fun e => e.1)).Sublist (sections.map (fun s => s.header))
  set scored := sections.map (fun s => (s, score_section s qw now clock)) with hscored
  set sorted := sortByDesc (fun p : MSection × Int => p.2) scored with hsortedd
  set packed := packGo budget sorted [] 0 with hpackedd
  set reordered := sortByAsc (fun p : MSection × Int => orderKey sections p.1.header)
    packed.1 with hreordd
  -- every surviving element is a scored section
  have hsub : ∀ p ∈ reordered, p.1 ∈ sections ∧ p.2 = score_section p.1 qw now clock := by
    intro p hp
    have hp1 : p ∈ packed.1 :=
      (sortByAsc_perm (fun p : MSection × Int => orderKey sections p.1.header)
        packed.1).mem_iff.mp hp
    obtain ⟨e, he, hs⟩ := packGo_sublist budget sorted [] 0
    rw [← hpackedd] at he
    rw [he] at hp1
    simp only [List.nil_append] at hp1
    have hp2 : p ∈ sorted := hs.mem hp1
    have hp3 : p ∈ scored := (sortByDesc_perm (fun p : MSection × Int => p.2)
      scored).mem_iff.mp hp2
    obtain ⟨u, hu, hue⟩ := List.mem_map.mp hp3
    constructor
    · rw [← hue]; exact hu
    · rw [← hue]
  -- nodup facts
  have hnodup_sections : sections.Nodup := hnd.of_map
  have hnodup_scored : scored.Nodup := by
    rw [hscored]
    exact hnodup_sections.map (fun a b hab => congrArg Prod.fst hab)
  have hnodup_sorted : sorted.Nodup :=
    ((sortByDesc_perm (fun p : MSection × Int => p.2) scored).nodup_iff).mpr hnodup_scored
  have hnodup_packed : packed.1.Nodup := by
    obtain ⟨e, he, hs⟩ := packGo_sublist budget sorted [] 0
    rw [← hpackedd] at he
    rw [he]
    simp only [List.nil_append]
    exact hs.nodup hnodup_sorted
  have hnodup_reord : reordered.Nodup :=
    ((sortByAsc_perm (fun p : MSection × Int => orderKey sections p.1.header)
      packed.1).nodup_iff).mpr hnodup_packed
  -- index facts
  have hidx : ∀ p ∈ reordered, ∃ (i : Nat) (hi : i < sections.length),
      sections.get ⟨i, hi⟩ = p.1 ∧ orderKey sections p.1.header = i := by
    intro p hp
    obtain ⟨hmem, _⟩ := hsub p hp
    obtain ⟨⟨i, hi⟩, hget⟩ := List.mem_iff_get.mp hmem
    refine ⟨i, hi, hget, ?_⟩
    have hok := orderKey_eq_of_nodup sections hnd i hi
    rw [hget] at hok
    exact hok
  -- strict sortedness of the restore keys
  have hpw_le : reordered.Pairwise
      (fun a b : MSection × Int =>
        orderKey sections a.1.header ≤ orderKey sections b.1.header) :=
    sortByAsc_pairwise (fun p : MSection × Int => orderKey sections p.1.header) packed.1
  have hpw_lt : reordered.Pairwise
      (fun a b : MSection × Int =>
        orderKey sections a.1.header < orderKey sections b.1.header) := by
    have hand := hpw_le.and hnodup_reord
    refine hand.imp_of_mem ?_
    intro a b ha hb hab
    obtain ⟨hle, hne⟩ := hab
    rcases Nat.lt_or_ge (orderKey sections a.1.header) (orderKey sections b.1.header)
      with h | h
    · exact h
    · exfalso
      have heq : orderKey sections a.1.header = orderKey sections b.1.header := by omega
      obtain ⟨i, hi, hgeta, hkeya⟩ := hidx a ha
      obtain ⟨j, hj, hgetb, hkeyb⟩ := hidx b hb
      have hij : i = j := by rw [← hkeya, ← hkeyb, heq]
      have hab1 : a.1 = b.1 := by
        subst hij
        rw [← hgeta, ← hgetb]
      obtain ⟨_, hsa⟩ := hsub a ha
      obtain ⟨_, hsb⟩ := hsub b hb
      apply hne
      have hab2 : a.2 = b.2 := by rw [hsa, hsb, hab1]
      exact Prod.ext hab1 hab2
  -- indices are a sorted nodup subset of the full index range
  have hidx_pw : (reordered.map
      (fun p : MSection × Int => orderKey sections p.1.header)).Pairwise (· < ·) :=
    hpw_lt.map _ (fun a b h => h)
  have hidx_nodup : (reordered.map
      (fun p : MSection × Int => orderKey sections p.1.header)).Nodup :=
    hidx_pw.imp (fun h => Nat.ne_of_lt h)
  have hidx_subset : (reordered.map
      (fun p : MSection × Int => orderKey sections p.1.header)) ⊆
      List.range sections.length := by
    intro i hi
    obtain ⟨p, hp, hpe⟩ := List.mem_map.mp hi
    obtain ⟨j, hj, _, hkey⟩ := hidx p hp
    rw [← hpe, hkey]
    exact List.mem_range.mpr hj
  have hsubperm := List.subperm_of_subset hidx_nodup hidx_subset
  have hidx_sorted : (reordered.map
      (fun p : MSection × Int => orderKey sections p.1.header)).Sorted (· ≤ ·) :=
    hidx_pw.imp (fun h => le_of_lt h)
  have hrange_sorted : (List.range sections.length).Sorted (· ≤ ·) :=
    (List.sorted_lt_range _).imp (fun h => le_of_lt h)
  haveI : IsAntisymm Nat (· ≤ ·) := ⟨fun a b h1 h2 => Nat.le_antisymm h1 h2⟩
  have hsubl : (reordered.map
      (fun p : MSection × Int => orderKey sections p.1.header)).Sublist
      (List.range sections.length) :=
    List.sublist_of_subperm_of_sorted hsubperm hidx_sorted hrange_sorted
  -- transport the sublist along getD
  have hmap : (reordered.map
      (fun p : MSection × Int => orderKey sections p.1.header)).map
        (fun i => (sections.map (fun s => s.header)).getD i []) =
      reordered.map (fun p => p.1.header) := by
    rw [List.map_map]
    apply List.map_congr_left
    intro p hp
    obtain ⟨i, hi, hget, hkey⟩ := hidx p hp
    show (sections.map (fun s => s.header)).getD (orderKey sections p.1.header) [] =
      p.1.header
    rw [hkey]
    have hlen : i < (sections.map (fun s => s.header)).length := by simpa using hi
    rw [List.getD_eq_get?, List.get?_eq_get hlen]
    simp only [Option.getD_some]
    rw [List.get_map]
    rw [hget]
  have hfinal := hsubl.map (fun i => (sections.map (fun s => s.header)).getD i [])
  rw [hmap] at hfinal
  have hrange : (List.range sections.length).map
      (fun i => (sections.map (fun s => s.header)).getD i []) =
      sections.map (fun s => s.header) := by
    have := map_getD_range (sections.map (fun s => s.header)) []
    rw [List.length_map] at this
    exact this
  rw [hrange] at hfinal
  rw [List.map_map]
  exact hfinal

/-! ### Counterexamples -/

/-- C1 counterexample: the claim "a section whose header contains
"identity" ... always appears among the included sections of
get_optimized_context regardless of budget" is false.  In `docC1` both
headers contain "identity", but with budget 1 only the first section is
included: the packer includes the first score-sorted section
unconditionally and then skips every further section that exceeds the
budget, so "identity B" is pruned. -/
theorem C1_counterexample :
    containsSub ("identity".toList) (lower ("identity B".toList)) = true ∧
    (get_optimized_context (some docC1) [] none (some 1) nowRef clockRef).sections_total = 2 ∧
    ((get_optimized_context (some docC1) [] none (some 1) nowRef clockRef).sections.map
      (fun e => e.1)) = ["identity A".toList] := by
  decide

/-- C2 counterexample: the claim "the assembled context lists the
included sections in the same relative order as they appear in the
source document, using each header's first-occurrence position as the
restore key; it never lists them in score order" is false for duplicate
headers.  In `docC2` the source order is the "alpha" section before the
"in progress" section, but both share the header "D", the restore key
maps both to the last occurrence's index, and the stable re-sort leaves
them in score order: the context lists the higher-scoring second section
first. -/
theorem C2_counterexample :
    parse_memory_sections docC2 =
      [⟨"D".toList, "alpha".toList⟩, ⟨"D".toList, "in progress".toList⟩] ∧
    (get_optimized_context (some docC2) [] none none nowRef clockRef).context =
      "## D\nin progress\n\n## D\nalpha".toList := by
  decide

/-- C3 counterexample: the claim "for all budgets b1 <= b2, the
sections_included reported with budget b2 is >= that reported with
budget b1" is false.  On `docC3` (token sizes 4, 10, 3, 3 in score
order) budget 10 includes three sections while the larger budget 14
includes only two: the 10-token section fits under budget 14 and blocks
the two 3-token sections. -/
theorem C3_counterexample :
    (get_optimized_context (some docC3) [] none (some 10) nowRef clockRef).sections_included = 3 ∧
    (get_optimized_context (some docC3) [] none (some 14) nowRef clockRef).sections_included = 2 := by
  decide

/-- C4 counterexample: the claim "on a missing or empty document, when
the inner-state text is non-empty the returned context still contains
the prepended Inner State block" is false: both early-return paths
(missing file, zero parsed sections) return an empty context before the
inner-state injection step runs. -/
theorem C4_counterexample :
    (get_optimized_context none ("Mood: calm".toList) none none nowRef clockRef).context = [] ∧
    (get_optimized_context (some []) ("Mood: calm".toList) none none nowRef clockRef).context
      = [] := by
  decide

/-- C5 counterexample: the claim that one run of compress_memory on a
two-Active-Task document "leaves the text of the IN PROGRESS section
byte-for-byte unchanged" is false when that section contains a run of
three or more newlines: the final `\n{3,} -> \n\n` collapse rewrites the
whole document, including the surviving section's body.  `secPC5` (the
IN PROGRESS section of `docC5`) occurs in the input but not in the
rewritten document. -/
theorem C5_counterexample :
    (compress_memory docC5).1 = 1 ∧
    containsSub secPC5 docC5 = true ∧
    containsSub secPC5 (compress_memory docC5).2 = false := by
  decide

/-- C6 counterexample: the claim that a second run of compress_memory
immediately after a first run "reports archived == 0 and leaves the live
document unchanged" is false.  In `docC6` the text `## Active Task (x)\n
**Status:** DONE` sits immediately before a mid-line archivable match;
removing that match glues it to the following `\n## `, creating a fresh
match, so the second run archives one more section and rewrites the
document again. -/
theorem C6_counterexample :
    (compress_memory docC6).1 = 1 ∧
    (compress_memory (compress_memory docC6).2).1 = 1 ∧
    (compress_memory (compress_memory docC6).2).2 ≠ (compress_memory docC6).2 := by
  decide

/-- C7 counterexample: the claim that a section is archivable if "the
first non-empty content line of its body is the label `**Status:**`
followed by exactly DONE" is false: the archival regex requires the
status line to follow the header line immediately.  In `docC7` the
parsed body's first (non-empty) line is exactly `**Status:** DONE`, yet
the blank line after the header makes the pattern fail: nothing is
archived and the document is untouched. -/
theorem C7_counterexample :
    parse_memory_sections docC7 =
      [⟨"Active Task (x)".toList, "**Status:** DONE\nb".toList⟩] ∧
    compress_memory docC7 = (0, docC7) := by
  decide

/-- C8 counterexample: the claim that "score_section's result is a
function of the section, the query words, and that timestamp only, and
does not re-read the current clock per section" is false: the recency
rule's `latest >= today` branch calls `datetime.now` afresh (server.py
line 700).  With identical section, query and reference timestamp, two
different ambient clock dates yield scores 30 and 0. -/
theorem C8_counterexample :
    score_section secC8 [] nowRef ("2026-10-12".toList) = 30 ∧
    score_section secC8 [] nowRef ("2031-01-01".toList) = 0 := by
  decide


/-- C4 amended: on a missing or empty document the early returns skip
the inner-state injection, so the context is empty even when the
inner-state text is non-empty; the inner-state block is prepended only
when at least one section parses.  The corrected invariant is: the
returned context is non-empty iff `sections_included > 0` (the supplied
inner-state block alone never makes it non-empty). -/
theorem C4_context_nonempty_iff (mcontent : Option (List Char)) (inner : List Char)
    (q : Option (List Char)) (b : Option Nat) (now clock : List Char) :
    (get_optimized_context mcontent inner q b now clock).context ≠ [] ↔
      0 < (get_optimized_context mcontent inner q b now clock).sections_included := by
  cases mcontent with
  | none => simp [get_optimized_context, emptyCtx]
  | some content =>
    unfold get_optimized_context
    dsimp only
    split
    · simp [emptyCtx]
    · rename_i hne
      have h : parse_memory_sections content ≠ [] := by
        intro hn
        rw [hn] at hne
        exact hne rfl
      obtain ⟨h1, h2⟩ := buildCtx_nonempty (effBudget b) (parse_memory_sections content)
        (queryWords q) inner now clock h
      exact ⟨fun _ => h2, fun _ => h1⟩

/-- C9: `budget = budget_tokens or DEFAULT_CONTEXT_BUDGET` makes a zero
budget indistinguishable from an omitted one: calling
`get_optimized_context` with `budget_tokens = 0` returns exactly the
result of the call with the budget omitted, and the reported
`budget_tokens` is the configured default. -/
theorem C9_zero_budget_defaults (mcontent : Option (List Char)) (inner : List Char)
    (q : Option (List Char)) (now clock : List Char) :
    get_optimized_context mcontent inner q (some 0) now clock =
      get_optimized_context mcontent inner q none now clock ∧
    (get_optimized_context mcontent inner q (some 0) now clock).budget_tokens =
      DEFAULT_CONTEXT_BUDGET := by
  constructor
  · rfl
  · cases mcontent with
    | none => rfl
    | some content =>
      unfold get_optimized_context
      dsimp only
      split <;> rfl

/-- C10: for every section, query-word list, reference timestamp and
ambient clock, `score_section` returns at least -10: the always-include
branch returns 1000, every additive rule other than the size penalty
contributes a non-negative amount, and the size penalty is exactly -10. -/
theorem C10_score_lower_bound (s : MSection) (qw : List (List Char))
    (now_str clock : List Char) : -10 ≤ score_section s qw now_str clock := by
  unfold score_section
  dsimp only
  split_ifs <;> try norm_num
  have h1 := statusScore_nonneg (lower s.body)
  have h2 := typeScore_nonneg (lower s.header) (lower s.body)
  have h3 := recScore_nonneg s now_str clock
  have h4 := queryScore_nonneg qw (lower s.header ++ ' ' :: lower s.body)
  have h5 := sizePenalty_ge s.body
  linarith


/-- C1 amended: a section whose header contains "identity"
(case-insensitive) scores exactly 1000 regardless of query, dates or
clock; and whenever it is the unique section scoring at least 1000 it
appears among the included sections regardless of budget, because the
packer always includes the first score-sorted section unconditionally.
(The original claim's unconditional "always appears regardless of
budget" fails when another section also reaches score 1000 or more; see
the counterexample with two identity sections.) -/
theorem C1_identity_amended (content inner : List Char) (q : Option (List Char))
    (b : Option Nat) (now clock : List Char) (s : MSection)
    (hmem : s ∈ parse_memory_sections content)
    (hid : containsSub ("identity".toList) (lower s.header) = true)
    (hmax : ∀ u ∈ parse_memory_sections content, u ≠ s →
      score_section u (queryWords q) now clock < 1000) :
    score_section s (queryWords q) now clock = 1000 ∧
    s.header ∈ (get_optimized_context (some content) inner q b now clock).sections.map
      (fun e => e.1) := by
  refine ⟨score_identity s (queryWords q) now clock hid, ?_⟩
  unfold get_optimized_context
  dsimp only
  split
  · rename_i he
    rw [List.isEmpty_iff] at he
    rw [he] at hmem
    simp at hmem
  · exact buildCtx_unique_max_mem (effBudget b) (parse_memory_sections content)
      (queryWords q) inner now clock s hmem
      (score_identity s (queryWords q) now clock hid) hmax

/-- C1 amended, witnessed at a concrete document with a single identity
section and budget 1. -/
theorem C1_identity_amended_witness :
    secC1W ∈ parse_memory_sections docC1W ∧
    containsSub ("identity".toList) (lower secC1W.header) = true ∧
    (∀ u ∈ parse_memory_sections docC1W, u ≠ secC1W →
      score_section u (queryWords none) nowRef clockRef < 1000) ∧
    (score_section secC1W (queryWords none) nowRef clockRef = 1000 ∧
      secC1W.header ∈ (get_optimized_context (some docC1W) [] none (some 1)
        nowRef clockRef).sections.map (fun e => e.1)) :=
  ⟨by decide, by decide, by decide,
    C1_identity_amended docC1W [] none (some 1) nowRef clockRef secC1W
      (by decide) (by decide) (by decide)⟩

/-- C3 amended: the greedy skip-and-continue packer is not monotone in
the budget in general (see the counterexample), but any budget at least
the total estimated token size of the document includes every section,
so its `sections_included` equals `sections_total` and dominates the
count reported for any other budget. -/
theorem C3_budget_monotone_at_full (content inner : List Char) (q : Option (List Char))
    (now clock : List Char) (b1 : Option Nat) (b2 : Nat)
    (hb2 : 0 < b2) (hsum : sumTokens (parse_memory_sections content) ≤ b2) :
    (get_optimized_context (some content) inner q b1 now clock).sections_included ≤
      (get_optimized_context (some content) inner q (some b2) now clock).sections_included := by
  unfold get_optimized_context
  dsimp only
  split
  · exact Nat.le_refl _
  · rw [effBudget_pos b2 hb2]
    calc (buildCtx (effBudget b1) (parse_memory_sections content) (queryWords q)
        inner now clock).sections_included
        ≤ (buildCtx (effBudget b1) (parse_memory_sections content) (queryWords q)
            inner now clock).sections_total := buildCtx_included_le_total _ _ _ _ _ _
      _ = (parse_memory_sections content).length := rfl
      _ = (buildCtx b2 (parse_memory_sections content) (queryWords q)
            inner now clock).sections_total := rfl
      _ = (buildCtx b2 (parse_memory_sections content) (queryWords q)
            inner now clock).sections_included :=
          (buildCtx_all_included b2 _ _ _ _ _ hsum).symm

/-- C3 amended, witnessed on `docC3` with budgets 10 and 100. -/
theorem C3_budget_monotone_at_full_witness :
    0 < 100 ∧ sumTokens (parse_memory_sections docC3) ≤ 100 ∧
    (get_optimized_context (some docC3) [] none (some 10) nowRef clockRef).sections_included ≤
      (get_optimized_context (some docC3) [] none (some 100) nowRef clockRef).sections_included :=
  ⟨by decide, by decide,
    C3_budget_monotone_at_full docC3 [] none nowRef clockRef (some 10) 100
      (by decide) (by decide)⟩


/-- C8 amended: `get_optimized_context` does capture a single reference
timestamp for the whole call, but `score_section` additionally consults
the ambient clock: line 700 compares the extracted maximal date against
a fresh `datetime.now` date, so the score can change with the clock (see
the counterexample).  The score is clock-independent whenever the
reference timestamp is non-empty and the section either contains no
`YYYY-MM-DD` date or its maximal extracted date equals the reference
date portion. -/
theorem C8_clock_independent_cases (s : MSection) (qw : List (List Char))
    (now c1 c2 : List Char) (hnow : now ≠ [])
    (hdates : maxDateOf (findDates (scoreDateInput s)) = none ∨
      maxDateOf (findDates (scoreDateInput s)) = some (now.take 10)) :
    score_section s qw now c1 = score_section s qw now c2 := by
  suffices h : recScore s now c1 = recScore s now c2 by
    unfold score_section
    dsimp only
    split_ifs <;> try rfl
    rw [h]
  unfold recScore
  cases hm : findDates (scoreDateInput s) with
  | nil => rfl
  | cons d ds =>
    rw [hm] at hdates
    rcases hdates with h | h
    · simp [maxDateOf] at h
    · simp only [maxDateOf, Option.some_inj] at h
      dsimp only
      have ht1 : (if now ≠ [] then List.take 10 now else c1) = List.take 10 now :=
        if_pos hnow
      have ht2 : (if now ≠ [] then List.take 10 now else c2) = List.take 10 now :=
        if_pos hnow
      rw [h, ht1, ht2, if_pos rfl, if_pos rfl]

/-- C8 amended, witnessed at a section dated with the reference date and
two different ambient clock dates. -/
theorem C8_clock_independent_cases_witness :
    nowRef ≠ [] ∧
    (maxDateOf (findDates (scoreDateInput secC8W)) = none ∨
      maxDateOf (findDates (scoreDateInput secC8W)) = some (nowRef.take 10)) ∧
    score_section secC8W [] nowRef ("2026-10-12".toList) =
      score_section secC8W [] nowRef ("2031-01-01".toList) :=
  ⟨by decide, by decide,
    C8_clock_independent_cases secC8W [] nowRef ("2026-10-12".toList)
      ("2031-01-01".toList) (by decide) (by decide)⟩


/-- C2 amended: the restore key is each header's LAST-occurrence index
(`{s["header"]: i for i, s in enumerate(sections)}` lets later duplicates
overwrite earlier ones), so with duplicate headers the included
duplicates keep their score order (see the counterexample).  When all
section headers are pairwise distinct, the assembled result does list
the included sections in source order: the header sequence of the result
is a sublist of the document's header sequence. -/
theorem C2_source_order_of_distinct (content inner : List Char) (q : Option (List Char))
    (b : Option Nat) (now clock : List Char)
    (hnd : ((parse_memory_sections content).map (fun s => s.header)).Nodup) :
    ((get_optimized_context (some content) inner q b now clock).sections.map
      (fun e => e.1)).Sublist
      ((parse_memory_sections content).map (fun s => s.header)) := by
  unfold get_optimized_context
  dsimp only
  split
  · show (([] : List (List Char × Int × Nat)).map (fun e => e.1)).Sublist _
    simp
  · exact buildCtx_order_sublist (effBudget b) _ (queryWords q) inner now clock hnd

/-- C2 amended, witnessed on the four-section document with distinct
headers and a pruning budget. -/
theorem C2_source_order_of_distinct_witness :
    ((parse_memory_sections docC3).map (fun s => s.header)).Nodup ∧
    ((get_optimized_context (some docC3) [] none (some 10) nowRef clockRef).sections.map
      (fun e => e.1)).Sublist
      ((parse_memory_sections docC3).map (fun s => s.header)) :=
  ⟨by decide, C2_source_order_of_distinct docC3 [] none (some 10) nowRef clockRef (by decide)⟩

theorem findFrom_nil (pos : Nat) : findFrom [] pos = [] := rfl

theorem findFrom_cons_none {c : Char} {l : List Char} (pos : Nat)
    (h : matchCore (c :: l) = none) : findFrom (c :: l) pos = findFrom l (pos + 1) := by
  unfold findFrom
  show (match matchCore (c :: l) with
    | some k =>
      (pos, pos + (k + lazyExt ((c :: l).drop k))) ::
        findGo l.length ((c :: l).drop (k + lazyExt ((c :: l).drop k)))
          (pos + (k + lazyExt ((c :: l).drop k)))
    | none => findGo l.length l (pos + 1)) = findGo l.length l (pos + 1)
  rw [h]

theorem findFrom_cons_some {c : Char} {l : List Char} {k : Nat} (pos : Nat)
    (h : matchCore (c :: l) = some k) :
    findFrom (c :: l) pos =
      (pos, pos + (k + lazyExt ((c :: l).drop k))) ::
        findFrom ((c :: l).drop (k + lazyExt ((c :: l).drop k)))
          (pos + (k + lazyExt ((c :: l).drop k))) := by
  unfold findFrom
  show (match matchCore (c :: l) with
    | some k =>
      (pos, pos + (k + lazyExt ((c :: l).drop k))) ::
        findGo l.length ((c :: l).drop (k + lazyExt ((c :: l).drop k)))
          (pos + (k + lazyExt ((c :: l).drop k)))
    | none => findGo l.length l (pos + 1)) = _
  rw [h]
  dsimp only
  congr 1
  apply findGoEnough
  · simp only [List.length_drop, List.length_cons]
    have := matchCore_pos h
    omega
  · exact Nat.le_refl _

theorem matchCore_head_ne_hash {c : Char} (l : List Char) (h : c ≠ '#') :
    matchCore (c :: l) = none := by
  unfold matchCore
  rw [if_neg]
  intro hpre
  have : hdrLit.isPrefixOf (c :: l) = true := hpre
  unfold hdrLit at this
  simp [List.isPrefixOf] at this
  exact h this.1.symm

theorem findFrom_hashFree : ∀ (l : List Char), (∀ c ∈ l, c ≠ '#') →
    ∀ pos, findFrom l pos = [] := by
  intro l
  induction l with
  | nil => intro _ pos; rfl
  | cons c rest ih =>
    intro h pos
    rw [findFrom_cons_none pos (matchCore_head_ne_hash rest (h c (List.mem_cons_self c rest)))]
    exact ih (fun d hd => h d (List.mem_cons_of_mem c hd)) (pos + 1)

theorem findFrom_hashFree_append : ∀ (l m : List Char), (∀ c ∈ l, c ≠ '#') →
    ∀ pos, findFrom (l ++ m) pos = findFrom m (pos + l.length) := by
  intro l
  induction l with
  | nil => intro m _ pos; simp
  | cons c rest ih =>
    intro m h pos
    rw [List.cons_append]
    rw [findFrom_cons_none pos (matchCore_head_ne_hash _ (h c (List.mem_cons_self c rest)))]
    rw [ih m (fun d hd => h d (List.mem_cons_of_mem c hd)) (pos + 1)]
    congr 1
    simp only [List.length_cons]
    omega

theorem lookAhead_false {c : Char} (l : List Char) (h : c ≠ '\n') :
    ("\n## ".toList).isPrefixOf (c :: l) = false := by
  show (('\n' :: "## ".toList).isPrefixOf (c :: l)) = false
  simp only [List.isPrefixOf_cons₂]
  simp [beq_iff_eq]
  intro he
  exact absurd he.symm h

theorem lazyExt_nlFree : ∀ (l : List Char), (∀ c ∈ l, c ≠ '\n') →
    lazyExt l = l.length := by
  intro l
  induction l with
  | nil => intro _; rfl
  | cons c rest ih =>
    intro h
    unfold lazyExt
    rw [show (("\n## ".toList).isPrefixOf (c :: rest)) = false from
      lookAhead_false rest (h c (List.mem_cons_self c rest))]
    simp only [Bool.false_eq_true, if_false]
    rw [ih (fun d hd => h d (List.mem_cons_of_mem c hd))]
    simp [Nat.add_comm]

theorem lazyExt_nlFree_sep : ∀ (l : List Char) (r : List Char),
    (∀ c ∈ l, c ≠ '\n') →
    lazyExt (l ++ '\n' :: '#' :: '#' :: ' ' :: r) = l.length := by
  intro l
  induction l with
  | nil =>
    intro r _
    simp only [List.nil_append]
    have hpre : ("\n## ".toList).isPrefixOf ('\n' :: '#' :: '#' :: ' ' :: r) = true := by
      simp [List.isPrefixOf]
    unfold lazyExt
    rw [if_pos hpre]
    rfl
  | cons c rest ih =>
    intro r h
    rw [List.cons_append]
    unfold lazyExt
    rw [show (("\n## ".toList).isPrefixOf
        (c :: (rest ++ '\n' :: '#' :: '#' :: ' ' :: r))) = false from
      lookAhead_false _ (h c (List.mem_cons_self c rest))]
    simp only [Bool.false_eq_true, if_false]
    rw [ih r (fun d hd => h d (List.mem_cons_of_mem c hd))]
    simp [Nat.add_comm]

theorem isPrefixOf_append_self : ∀ (l m : List Char), l.isPrefixOf (l ++ m) = true := by
  intro l m
  induction l with
  | nil => simp
  | cons c rest ih =>
    rw [List.cons_append]
    simp only [List.isPrefixOf_cons₂]
    simp only [beq_self_eq_true, Bool.true_and]
    exact ih

theorem takeWhile_ne_rp_append (a : List Char) (r : List Char)
    (ha : ∀ c ∈ a, c ≠ ')') :
    (a ++ ')' :: r).takeWhile (fun c => c ≠ ')') = a := by
  induction a with
  | nil => simp [List.takeWhile]
  | cons c rest ih =>
    rw [List.cons_append]
    rw [List.takeWhile_cons]
    rw [if_pos]
    · rw [ih (fun d hd => ha d (List.mem_cons_of_mem c hd))]
    · simpa using ha c (List.mem_cons_self c rest)

theorem prefix_nl_iff (b : List Char) : ∀ (lit st : List Char),
    '\n' ∉ lit → '\n' ∉ st →
    (((lit ++ ['\n']).isPrefixOf (st ++ '\n' :: b)) = true ↔ st = lit) := by
  intro lit
  induction lit with
  | nil =>
    intro st hl hs
    cases st with
    | nil => simp [List.isPrefixOf]
    | cons c st' =>
      simp only [List.nil_append, List.cons_append]
      constructor
      · intro h
        exfalso
        have h' : ('\n' == c && ([] : List Char).isPrefixOf (st' ++ '\n' :: b)) = true := h
        rw [Bool.and_eq_true] at h'
        have hc : '\n' = c := by simpa using h'.1
        apply hs
        rw [hc]
        exact List.mem_cons_self c st'
      · intro h
        exact absurd h (by simp)
  | cons x lit' ih =>
    intro st hl hs
    have hx : x ≠ '\n' := by
      intro he
      apply hl
      rw [← he]
      exact List.mem_cons_self x lit'
    have hl' : '\n' ∉ lit' := fun hm => hl (List.mem_cons_of_mem x hm)
    cases st with
    | nil =>
      simp only [List.cons_append, List.nil_append]
      constructor
      · intro h
        exfalso
        have h' : (x == '\n' && (lit' ++ ['\n']).isPrefixOf b) = true := h
        rw [Bool.and_eq_true] at h'
        exact hx (by simpa using h'.1)
      · intro h
        exact absurd h (by simp)
    | cons c st' =>
      have hs' : '\n' ∉ st' := fun hm => hs (List.mem_cons_of_mem c hm)
      simp only [List.cons_append]
      rw [List.isPrefixOf_cons₂]
      rw [Bool.and_eq_true]
      constructor
      · rintro ⟨h1, h2⟩
        have hxc : x = c := by simpa using h1
        have hst := (ih st' hl' hs').mp h2
        rw [hxc, hst]
      · intro h
        injection h with h1 h2
        constructor
        · rw [h1]
          simp
        · exact (ih st' hl' hs').mpr h2

theorem statusKw_done (r : List Char) : statusKw ("DONE".toList ++ '\n' :: r) = some 5 := by
  unfold statusKw
  rw [if_pos]
  show ("DONE\n".toList).isPrefixOf ("DONE\n".toList ++ r) = true
  exact isPrefixOf_append_self _ r

theorem statusKw_cancelled (r : List Char) :
    statusKw ("CANCELLED".toList ++ '\n' :: r) = some 10 := by
  unfold statusKw
  rw [if_neg, if_pos]
  · show ("CANCELLED\n".toList).isPrefixOf ("CANCELLED\n".toList ++ r) = true
    exact isPrefixOf_append_self _ r
  · show ¬ (("DONE\n".toList).isPrefixOf ('C' :: ("ANCELLED".toList ++ '\n' :: r)) = true)
    simp [List.isPrefixOf]

theorem statusKw_none (st b : List Char) (hnl : '\n' ∉ st)
    (hd : st ≠ "DONE".toList) (hc : st ≠ "CANCELLED".toList) :
    statusKw (st ++ '\n' :: b) = none := by
  have h1 : ("DONE\n".toList).isPrefixOf (st ++ '\n' :: b) = false := by
    rw [show ("DONE\n".toList) = "DONE".toList ++ ['\n'] from rfl]
    rw [Bool.eq_false_iff]
    intro hp
    exact hd ((prefix_nl_iff b ("DONE".toList) st (by decide) hnl).mp hp)
  have h2 : ("CANCELLED\n".toList).isPrefixOf (st ++ '\n' :: b) = false := by
    rw [show ("CANCELLED\n".toList) = "CANCELLED".toList ++ ['\n'] from rfl]
    rw [Bool.eq_false_iff]
    intro hp
    exact hc ((prefix_nl_iff b ("CANCELLED".toList) st (by decide) hnl).mp hp)
  unfold statusKw
  rw [if_neg (by rw [h1]; simp), if_neg (by rw [h2]; simp)]

theorem matchCore_taskSec (a st b m : List Char) (ha : a ≠ [])
    (ha2 : ∀ c ∈ a, c ≠ ')') :
    matchCore (taskSec a st b ++ m) =
      match statusKw (st ++ '\n' :: (b ++ m)) with
      | some kw => some (30 + a.length + kw)
      | none => none := by
  have hshape : taskSec a st b ++ m =
      hdrLit ++ (a ++ ')' :: (stLit ++ (st ++ '\n' :: (b ++ m)))) := by
    unfold taskSec
    simp [List.append_assoc]
  rw [hshape]
  unfold matchCore
  rw [if_pos (isPrefixOf_append_self hdrLit _)]
  have hdrop16 : (hdrLit ++ (a ++ ')' :: (stLit ++ (st ++ '\n' :: (b ++ m))))).drop 16 =
      a ++ ')' :: (stLit ++ (st ++ '\n' :: (b ++ m))) := by
    rw [show (16 : Nat) = hdrLit.length from rfl]
    exact List.drop_left hdrLit _
  rw [hdrop16]
  dsimp only
  rw [takeWhile_ne_rp_append a _ ha2]
  rw [if_neg (by simpa using ha)]
  have hdropa : (a ++ ')' :: (stLit ++ (st ++ '\n' :: (b ++ m)))).drop a.length =
      ')' :: (stLit ++ (st ++ '\n' :: (b ++ m))) := List.drop_left a _
  rw [hdropa]
  show (if stLit.isPrefixOf (stLit ++ (st ++ '\n' :: (b ++ m))) = true then
      match statusKw ((stLit ++ (st ++ '\n' :: (b ++ m))).drop 13) with
      | some q => some (16 + a.length + 1 + 13 + q)
      | none => none
    else none) = _
  rw [if_pos (isPrefixOf_append_self stLit _)]
  have hdrop13 : (stLit ++ (st ++ '\n' :: (b ++ m))).drop 13 =
      st ++ '\n' :: (b ++ m) := by
    rw [show (13 : Nat) = stLit.length from rfl]
    exact List.drop_left stLit _
  rw [hdrop13]
  cases hk : statusKw (st ++ '\n' :: (b ++ m)) with
  | some kw =>
    rw [Option.some_inj]
    omega
  | none => rfl

theorem lazyExt_hashFree : ∀ (l : List Char), (∀ c ∈ l, c ≠ '#') →
    lazyExt l = l.length := by
  intro l
  induction l with
  | nil => intro _; rfl
  | cons c rest ih =>
    intro h
    have hla : ("\n## ".toList).isPrefixOf (c :: rest) = false := by
      cases rest with
      | nil => simp [List.isPrefixOf]
      | cons d rest' =>
        have hd : d ≠ '#' := (h d (List.mem_cons_of_mem c (List.mem_cons_self d rest')))
        show (('\n' :: '#' :: "# ".toList).isPrefixOf (c :: d :: rest')) = false
        simp only [List.isPrefixOf_cons₂]
        simp [beq_iff_eq]
        intro _ he
        exact absurd he.symm hd
    unfold lazyExt
    rw [hla]
    simp only [Bool.false_eq_true, if_false]
    rw [ih (fun d hd => h d (List.mem_cons_of_mem c hd))]
    simp [Nat.add_comm]

theorem matchCore_hash_pair {c : Char} (l : List Char) (h : c ≠ '#') :
    matchCore ('#' :: c :: l) = none := by
  unfold matchCore
  rw [if_neg]
  intro hpre
  have : hdrLit.isPrefixOf ('#' :: c :: l) = true := hpre
  show False
  unfold hdrLit at this
  simp only [String.toList] at this
  simp [List.isPrefixOf, beq_iff_eq] at this
  exact h this.1.symm

theorem matchCore_nil : matchCore [] = none := by
  unfold matchCore
  rw [if_neg]
  simp [hdrLit, List.isPrefixOf]

theorem findFrom_some {l : List Char} {k : Nat} (h : matchCore l = some k) (pos : Nat) :
    findFrom l pos = (pos, pos + (k + lazyExt (l.drop k))) ::
      findFrom (l.drop (k + lazyExt (l.drop k))) (pos + (k + lazyExt (l.drop k))) := by
  cases l with
  | nil => rw [matchCore_nil] at h; exact absurd h (by simp)
  | cons c rest => exact findFrom_cons_some pos h

theorem findMatches_eq_findFrom (l : List Char) : findMatches l = findFrom l 0 := rfl

theorem taskSec_hashFree_tail (a st b : List Char)
    (ha2 : ∀ c ∈ a, c ≠ ')' ∧ c ≠ '#')
    (hst_h : ∀ c ∈ st, c ≠ '#')
    (hb : ∀ c ∈ b, c ≠ '#') :
    ∀ c ∈ (" Active Task (".toList ++ (a ++ ')' :: (stLit ++ (st ++ '\n' :: b)))),
      c ≠ '#' := by
  intro c hc
  simp only [List.mem_append, List.mem_cons] at hc
  rcases hc with hc | hc | hc | hc | hc | hc | hc
  · exact (by decide : ∀ x ∈ " Active Task (".toList, x ≠ '#') c hc
  · exact (ha2 c hc).2
  · rw [hc]; decide
  · exact (by decide : ∀ x ∈ stLit, x ≠ '#') c hc
  · exact hst_h c hc
  · rw [hc]; decide
  · exact hb c hc

theorem taskSec_cons (a st b : List Char) :
    taskSec a st b =
      '#' :: '#' :: (" Active Task (".toList ++ (a ++ ')' :: (stLit ++ (st ++ '\n' :: b)))) := by
  unfold taskSec hdrLit
  simp [List.append_assoc]

theorem findFrom_taskSec_none (a st b : List Char) (pos : Nat) (ha : a ≠ [])
    (ha2 : ∀ c ∈ a, c ≠ ')' ∧ c ≠ '#')
    (hst_nl : '\n' ∉ st) (hst_h : ∀ c ∈ st, c ≠ '#')
    (hdone : st ≠ "DONE".toList) (hcanc : st ≠ "CANCELLED".toList)
    (hb : ∀ c ∈ b, c ≠ '#') :
    findFrom (taskSec a st b) pos = [] := by
  have h0 : matchCore (taskSec a st b) = none := by
    have hm := matchCore_taskSec a st b [] ha (fun c hc' => (ha2 c hc').1)
    rw [List.append_nil, List.append_nil] at hm
    rw [statusKw_none st b hst_nl hdone hcanc] at hm
    exact hm
  rw [taskSec_cons] at h0 ⊢
  rw [findFrom_cons_none pos h0]
  have e1 : (" Active Task (".toList ++ (a ++ ')' :: (stLit ++ (st ++ '\n' :: b))))
      = ' ' :: ("Active Task (".toList ++ (a ++ ')' :: (stLit ++ (st ++ '\n' :: b)))) := rfl
  rw [findFrom_cons_none (pos + 1) (by rw [e1]; exact matchCore_hash_pair _ (by decide))]
  exact findFrom_hashFree _ (taskSec_hashFree_tail a st b ha2 hst_h hb) (pos + 1 + 1)

theorem taskSec_split (a st b : List Char) :
    taskSec a st b = (hdrLit ++ a ++ [')'] ++ stLit ++ st ++ ['\n']) ++ b := by
  unfold taskSec
  simp [List.append_assoc]

theorem taskSec_pre_length (a st : List Char) :
    (hdrLit ++ a ++ [')'] ++ stLit ++ st ++ ['\n']).length = 31 + a.length + st.length := by
  simp only [List.length_append, List.length_cons, List.length_nil,
    show hdrLit.length = 16 from rfl, show stLit.length = 13 from rfl]
  omega

theorem taskSec_length (a st b : List Char) :
    (taskSec a st b).length = 31 + a.length + st.length + b.length := by
  rw [taskSec_split, List.length_append, taskSec_pre_length]

theorem findFrom_taskSec_arch (a st b : List Char) (pos : Nat) (ha : a ≠ [])
    (ha2 : ∀ c ∈ a, c ≠ ')')
    (harch : st = "DONE".toList ∨ st = "CANCELLED".toList)
    (hb : ∀ c ∈ b, c ≠ '#') :
    findFrom (taskSec a st b) pos = [(pos, pos + (taskSec a st b).length)] := by
  have h0 : matchCore (taskSec a st b) = some (30 + a.length + (st.length + 1)) := by
    have hm := matchCore_taskSec a st b [] ha ha2
    rw [List.append_nil, List.append_nil] at hm
    rcases harch with h | h
    · rw [h] at hm ⊢
      rw [statusKw_done b] at hm
      exact hm
    · rw [h] at hm ⊢
      rw [statusKw_cancelled b] at hm
      exact hm
  have hkp : 30 + a.length + (st.length + 1) = 31 + a.length + st.length := by omega
  rw [hkp] at h0
  rw [findFrom_some h0 pos]
  have hdropk : (taskSec a st b).drop (31 + a.length + st.length) = b := by
    rw [taskSec_split, ← taskSec_pre_length a st]
    exact List.drop_left _ _
  rw [hdropk, lazyExt_hashFree b hb]
  have hlen : 31 + a.length + st.length + b.length = (taskSec a st b).length := by
    rw [taskSec_length]
  rw [hlen]
  have hdropall : (taskSec a st b).drop (taskSec a st b).length = [] :=
    List.drop_length _
  rw [hdropall, findFrom_nil]

theorem collapseGo_nl (k : Nat) (rest : List Char) :
    collapseGo k ('\n' :: rest) = collapseGo (k + 1) rest := rfl

theorem collapseGo_cons_ne (k : Nat) (c : Char) (rest : List Char) (h : c ≠ '\n') :
    collapseGo k (c :: rest) = List.replicate (min k 2) '\n' ++ c :: collapseGo 0 rest := by
  rw [collapseGo.eq_def]
  split
  · rename_i heq
    exact absurd heq (List.cons_ne_nil c rest)
  · rename_i heq
    injection heq with h1 _
    exact absurd h1 h
  · rename_i heq
    injection heq with h1 h2
    rw [h1, h2]

theorem collapse_noDouble : ∀ (l : List Char), NoNlNl l →
    collapseGo 0 l = l ∧ (l.head? ≠ some '\n' → collapseGo 1 l = '\n' :: l) := by
  intro l
  induction l with
  | nil => intro _; exact ⟨rfl, fun _ => rfl⟩
  | cons c rest ih =>
    intro hch
    have hrest : NoNlNl rest := hch.tail
    obtain ⟨ih0, ih1⟩ := ih hrest
    by_cases hc : c = '\n'
    · subst hc
      constructor
      · rw [collapseGo_nl]
        apply ih1
        cases rest with
        | nil => simp
        | cons d r' =>
          unfold NoNlNl at hch
          rw [List.chain'_cons] at hch
          have hpair := hch.1
          simp only [List.head?_cons, ne_eq, Option.some_inj]
          intro hd
          exact hpair ⟨rfl, hd⟩
      · intro hh
        simp at hh
    · constructor
      · rw [collapseGo_cons_ne 0 c rest hc]
        simp [ih0]
      · intro _
        rw [collapseGo_cons_ne 1 c rest hc]
        simp [ih0]

theorem collapseNewlines_of_noDouble (l : List Char) (h : NoNlNl l) :
    collapseNewlines l = l :=
  (collapse_noDouble l h).1

theorem noNlNl_append_left (l m : List Char) (hl : ∀ c ∈ l, c ≠ '\n')
    (hm : NoNlNl m) : NoNlNl (l ++ m) := by
  induction l with
  | nil => exact hm
  | cons c rest ih =>
    rw [List.cons_append]
    rw [NoNlNl, List.chain'_cons']
    constructor
    · intro b _ hab
      exact hl c (List.mem_cons_self c rest) hab.1
    · exact ih (fun d hd => hl d (List.mem_cons_of_mem c hd))

theorem noNlNl_nlFree (l : List Char) (hl : ∀ c ∈ l, c ≠ '\n') : NoNlNl l := by
  have := noNlNl_append_left l [] hl (by exact List.chain'_nil)
  simpa using this

theorem noNlNl_cons_ne (c : Char) (m : List Char) (hc : c ≠ '\n')
    (hm : NoNlNl m) : NoNlNl (c :: m) := by
  rw [NoNlNl, List.chain'_cons']
  exact ⟨fun b _ hab => hc hab.1, hm⟩

theorem noNlNl_cons_nl (m : List Char) (hm : NoNlNl m)
    (hhead : m.head? ≠ some '\n') : NoNlNl ('\n' :: m) := by
  rw [NoNlNl, List.chain'_cons']
  refine ⟨?_, hm⟩
  intro b hb hab
  apply hhead
  rw [hb]
  rw [hab.2]

theorem head_ne_nl_of_nlFree (l : List Char) (h : ∀ c ∈ l, c ≠ '\n') :
    l.head? ≠ some '\n' := by
  cases l with
  | nil => simp
  | cons c r =>
    simp only [List.head?_cons, ne_eq, Option.some_inj]
    intro hc
    exact h c (List.mem_cons_self c r) hc

theorem noNlNl_taskSec (a st x : List Char)
    (ha : ∀ c ∈ a, c ≠ '\n') (hst : ∀ c ∈ st, c ≠ '\n')
    (hx : NoNlNl ('\n' :: x)) :
    NoNlNl (taskSec a st x) := by
  rw [taskSec_cons]
  apply noNlNl_cons_ne '#' _ (by decide)
  apply noNlNl_cons_ne '#' _ (by decide)
  apply noNlNl_append_left _ _ (by decide)
  apply noNlNl_append_left a _ ha
  apply noNlNl_cons_ne ')' _ (by decide)
  rw [show stLit ++ (st ++ '\n' :: x) =
    '\n' :: ("**Status:** ".toList ++ (st ++ '\n' :: x)) from rfl]
  apply noNlNl_cons_nl
  · apply noNlNl_append_left _ _ (by decide)
    apply noNlNl_append_left st _ hst
    exact hx
  · rw [show ("**Status:** ".toList ++ (st ++ '\n' :: x)) =
      '*' :: ("*Status:** ".toList ++ (st ++ '\n' :: x)) from rfl]
    simp

theorem noNlNl_nl_cons_of_nlFree (x : List Char) (hx : ∀ c ∈ x, c ≠ '\n') :
    NoNlNl ('\n' :: x) :=
  noNlNl_cons_nl x (noNlNl_nlFree x hx) (head_ne_nl_of_nlFree x hx)

theorem secP_cons_shape (b2 st x : List Char) :
    '\n' :: taskSec b2 st x =
      '\n' :: '#' :: '#' :: ' ' ::
        ("Active Task (".toList ++ (b2 ++ ')' :: (stLit ++ (st ++ '\n' :: x)))) := by
  rw [taskSec_cons]
  rfl

theorem findMatches_two_sections (a b2 d x : List Char)
    (ha : a ≠ []) (hb2 : b2 ≠ [])
    (ha2 : ∀ c ∈ a, c ≠ ')' ∧ c ≠ '#')
    (hb2c : ∀ c ∈ b2, c ≠ ')' ∧ c ≠ '#')
    (hd : ∀ c ∈ d, c ≠ '\n')
    (hx : ∀ c ∈ x, c ≠ '#') :
    findMatches (taskSec a ("DONE".toList) d ++ '\n' :: taskSec b2 ("IN PROGRESS".toList) x) =
      [(0, (taskSec a ("DONE".toList) d).length)] := by
  have h0 : matchCore (taskSec a ("DONE".toList) d ++ '\n' :: taskSec b2 ("IN PROGRESS".toList) x)
      = some (31 + a.length + 4) := by
    have hm := matchCore_taskSec a ("DONE".toList) d
      ('\n' :: taskSec b2 ("IN PROGRESS".toList) x) ha (fun c hc => (ha2 c hc).1)
    rw [statusKw_done] at hm
    rw [hm]
    rw [Option.some_inj]
    omega
  rw [findMatches_eq_findFrom, findFrom_some h0 0]
  have hsplit : taskSec a ("DONE".toList) d ++ '\n' :: taskSec b2 ("IN PROGRESS".toList) x =
      (hdrLit ++ a ++ [')'] ++ stLit ++ "DONE".toList ++ ['\n']) ++
        (d ++ '\n' :: taskSec b2 ("IN PROGRESS".toList) x) := by
    rw [taskSec_split]
    rw [List.append_assoc]
  have hprelen : (hdrLit ++ a ++ [')'] ++ stLit ++ "DONE".toList ++ ['\n']).length =
      31 + a.length + 4 := by
    rw [taskSec_pre_length]
    rfl
  have hdropk : (taskSec a ("DONE".toList) d ++
      '\n' :: taskSec b2 ("IN PROGRESS".toList) x).drop (31 + a.length + 4) =
      d ++ '\n' :: taskSec b2 ("IN PROGRESS".toList) x := by
    rw [hsplit, ← hprelen]
    exact List.drop_left _ _
  rw [hdropk]
  have hlaz : lazyExt (d ++ '\n' :: taskSec b2 ("IN PROGRESS".toList) x) = d.length := by
    rw [secP_cons_shape]
    exact lazyExt_nlFree_sep d _ hd
  rw [hlaz]
  have he : 31 + a.length + 4 + d.length = (taskSec a ("DONE".toList) d).length := by
    rw [taskSec_length]
    simp only [show ("DONE".toList).length = 4 from rfl]
  rw [he]
  have hdrope : (taskSec a ("DONE".toList) d ++
      '\n' :: taskSec b2 ("IN PROGRESS".toList) x).drop (taskSec a ("DONE".toList) d).length =
      '\n' :: taskSec b2 ("IN PROGRESS".toList) x := List.drop_left _ _
  rw [hdrope]
  have hcons : findFrom ('\n' :: taskSec b2 ("IN PROGRESS".toList) x)
      (0 + (taskSec a ("DONE".toList) d).length) =
      findFrom (taskSec b2 ("IN PROGRESS".toList) x)
        (0 + (taskSec a ("DONE".toList) d).length + 1) :=
    findFrom_cons_none _ (matchCore_head_ne_hash _ (by decide))
  rw [hcons]
  rw [findFrom_taskSec_none b2 ("IN PROGRESS".toList) x _ hb2 hb2c
    (by decide) (by decide) (by decide) (by decide) hx]
  simp

theorem taskSec_snoc_nl (a st d : List Char) :
    taskSec a st d ++ ['\n'] = taskSec a st (d ++ ['\n']) := by
  unfold taskSec
  simp [List.append_assoc]

theorem findFrom_doc_pair_arch1 (a st1 d b2 st2 x : List Char)
    (ha : a ≠ []) (ha2 : ∀ c ∈ a, c ≠ ')')
    (harch : st1 = "DONE".toList ∨ st1 = "CANCELLED".toList)
    (hd : ∀ c ∈ d, c ≠ '\n') :
    findFrom (taskSec a st1 d ++ '\n' :: taskSec b2 st2 x) 0 =
      (0, (taskSec a st1 d).length) ::
        findFrom (taskSec b2 st2 x) ((taskSec a st1 d).length + 1) := by
  have h0 : matchCore (taskSec a st1 d ++ '\n' :: taskSec b2 st2 x)
      = some (31 + a.length + st1.length) := by
    have hm := matchCore_taskSec a st1 d ('\n' :: taskSec b2 st2 x) ha ha2
    rcases harch with h | h
    · rw [h] at hm ⊢
      rw [statusKw_done] at hm
      rw [hm, Option.some_inj, show ("DONE".toList).length = 4 from rfl]
      omega
    · rw [h] at hm ⊢
      rw [statusKw_cancelled] at hm
      rw [hm, Option.some_inj, show ("CANCELLED".toList).length = 9 from rfl]
      omega
  rw [findFrom_some h0 0]
  have hsplit : taskSec a st1 d ++ '\n' :: taskSec b2 st2 x =
      (hdrLit ++ a ++ [')'] ++ stLit ++ st1 ++ ['\n']) ++
        (d ++ '\n' :: taskSec b2 st2 x) := by
    rw [taskSec_split, List.append_assoc]
  have hdropk : (taskSec a st1 d ++ '\n' :: taskSec b2 st2 x).drop
      (31 + a.length + st1.length) = d ++ '\n' :: taskSec b2 st2 x := by
    rw [hsplit, ← taskSec_pre_length a st1]
    exact List.drop_left _ _
  rw [hdropk]
  have hlaz : lazyExt (d ++ '\n' :: taskSec b2 st2 x) = d.length := by
    rw [secP_cons_shape]
    exact lazyExt_nlFree_sep d _ hd
  rw [hlaz]
  have he : 31 + a.length + st1.length + d.length = (taskSec a st1 d).length := by
    rw [taskSec_length]
  rw [he]
  have hdrope : (taskSec a st1 d ++ '\n' :: taskSec b2 st2 x).drop
      (taskSec a st1 d).length = '\n' :: taskSec b2 st2 x := List.drop_left _ _
  rw [hdrope]
  rw [findFrom_cons_none _ (matchCore_head_ne_hash _ (by decide))]
  simp

theorem taskSec_cons_length (a st d : List Char) :
    (taskSec a st d).length =
      (" Active Task (".toList ++ (a ++ ')' :: (stLit ++ (st ++ '\n' :: d)))).length + 2 := by
  rw [taskSec_cons]
  simp

theorem findFrom_doc_pair_nonarch1 (a st1 d b2 st2 x : List Char)
    (ha : a ≠ []) (ha2 : ∀ c ∈ a, c ≠ ')' ∧ c ≠ '#')
    (hst1nl : '\n' ∉ st1) (hst1h : ∀ c ∈ st1, c ≠ '#')
    (hdone : st1 ≠ "DONE".toList) (hcanc : st1 ≠ "CANCELLED".toList)
    (hdh : ∀ c ∈ d, c ≠ '#') :
    findFrom (taskSec a st1 d ++ '\n' :: taskSec b2 st2 x) 0 =
      findFrom (taskSec b2 st2 x) ((taskSec a st1 d).length + 1) := by
  have h0 : matchCore (taskSec a st1 d ++ '\n' :: taskSec b2 st2 x) = none := by
    have hm := matchCore_taskSec a st1 d ('\n' :: taskSec b2 st2 x) ha
      (fun c hc => (ha2 c hc).1)
    rw [statusKw_none st1 _ hst1nl hdone hcanc] at hm
    exact hm
  have hdoc : taskSec a st1 d ++ '\n' :: taskSec b2 st2 x =
      '#' :: '#' ::
        ((" Active Task (".toList ++ (a ++ ')' :: (stLit ++ (st1 ++ '\n' :: d)))) ++
          '\n' :: taskSec b2 st2 x) := by
    rw [taskSec_cons]
    simp [List.cons_append]
  rw [hdoc] at h0 ⊢
  rw [findFrom_cons_none 0 h0]
  have e1 : ((" Active Task (".toList ++ (a ++ ')' :: (stLit ++ (st1 ++ '\n' :: d)))) ++
        '\n' :: taskSec b2 st2 x) =
      ' ' :: (("Active Task (".toList ++ (a ++ ')' :: (stLit ++ (st1 ++ '\n' :: d)))) ++
        '\n' :: taskSec b2 st2 x) := rfl
  rw [findFrom_cons_none (0 + 1) (by rw [e1]; exact matchCore_hash_pair _ (by decide))]
  have hass : ((" Active Task (".toList ++ (a ++ ')' :: (stLit ++ (st1 ++ '\n' :: d)))) ++
        '\n' :: taskSec b2 st2 x) =
      ((" Active Task (".toList ++ (a ++ ')' :: (stLit ++ (st1 ++ '\n' :: d)))) ++ ['\n']) ++
        taskSec b2 st2 x := by
    simp [List.append_assoc]
  rw [hass]
  rw [findFrom_hashFree_append _ _ ?hfree (0 + 1 + 1)]
  case hfree =>
    intro c hc
    rcases List.mem_append.mp hc with hc | hc
    · exact taskSec_hashFree_tail a st1 d ha2 hst1h hdh c hc
    · simp only [List.mem_singleton] at hc
      rw [hc]
      decide
  congr 1
  rw [List.length_append, taskSec_cons_length]
  simp
  omega

theorem noNlNl_singleton_nl : NoNlNl ['\n'] := by
  unfold NoNlNl
  simp

theorem doc_pair_split (a st1 d b2 st2 x : List Char) :
    taskSec a st1 d ++ '\n' :: taskSec b2 st2 x =
      (taskSec a st1 d ++ ['\n']) ++ taskSec b2 st2 x := by
  simp [List.append_assoc]

theorem doc_pair_take (a st1 d b2 st2 x : List Char) :
    (taskSec a st1 d ++ '\n' :: taskSec b2 st2 x).take ((taskSec a st1 d).length + 1) =
      taskSec a st1 d ++ ['\n'] := by
  rw [doc_pair_split]
  rw [show (taskSec a st1 d).length + 1 = (taskSec a st1 d ++ ['\n']).length by simp]
  exact List.take_left _ _

theorem doc_pair_drop_all (a st1 d b2 st2 x : List Char) :
    (taskSec a st1 d ++ '\n' :: taskSec b2 st2 x).drop
      ((taskSec a st1 d).length + 1 + (taskSec b2 st2 x).length) = [] := by
  have hlen : (taskSec a st1 d ++ '\n' :: taskSec b2 st2 x).length =
      (taskSec a st1 d).length + 1 + (taskSec b2 st2 x).length := by
    simp
    omega
  rw [← hlen, List.drop_length]

theorem compress1_arch_nonarch (a st1 d b2 st2 x : List Char)
    (ha : a ≠ []) (hb2 : b2 ≠ [])
    (ha2 : ∀ c ∈ a, c ≠ ')' ∧ c ≠ '#')
    (hb2c : ∀ c ∈ b2, c ≠ ')' ∧ c ≠ '#' ∧ c ≠ '\n')
    (harch : st1 = "DONE".toList ∨ st1 = "CANCELLED".toList)
    (hst2 : ∀ c ∈ st2, c ≠ '\n' ∧ c ≠ '#')
    (hd2 : st2 ≠ "DONE".toList) (hc2 : st2 ≠ "CANCELLED".toList)
    (hd : ∀ c ∈ d, c ≠ '\n')
    (hx : ∀ c ∈ x, c ≠ '#' ∧ c ≠ '\n') :
    compress_memory (taskSec a st1 d ++ '\n' :: taskSec b2 st2 x) =
      (1, '\n' :: taskSec b2 st2 x) := by
  unfold compress_memory
  rw [findMatches_eq_findFrom,
    findFrom_doc_pair_arch1 a st1 d b2 st2 x ha (fun c hc => (ha2 c hc).1) harch hd,
    findFrom_taskSec_none b2 st2 x _ hb2
      (fun c hc => ⟨(hb2c c hc).1, (hb2c c hc).2.1⟩)
      (fun hm => (hst2 _ hm).1 rfl) (fun c hc => (hst2 c hc).2) hd2 hc2
      (fun c hc => (hx c hc).1)]
  rw [if_neg (by simp)]
  unfold removeMatches
  simp only [List.reverse_cons, List.reverse_nil, List.nil_append, List.foldl_cons,
    List.foldl_nil]
  unfold spliceOut
  rw [List.take_zero, List.nil_append]
  rw [show (taskSec a st1 d ++ '\n' :: taskSec b2 st2 x).drop (taskSec a st1 d).length =
    '\n' :: taskSec b2 st2 x from List.drop_left _ _]
  have hnd : NoNlNl ('\n' :: taskSec b2 st2 x) := by
    apply noNlNl_cons_nl
    · exact noNlNl_taskSec b2 _ x (fun c hc => (hb2c c hc).2.2)
        (fun c hc => (hst2 c hc).1)
        (noNlNl_nl_cons_of_nlFree x (fun c hc => (hx c hc).2))
    · rw [taskSec_cons]
      simp
  rw [collapseNewlines_of_noDouble _ hnd]
  simp

theorem compress1_nonarch_arch (a st1 d b2 st2 x : List Char)
    (ha : a ≠ []) (hb2 : b2 ≠ []) (hdne : d ≠ [])
    (ha2 : ∀ c ∈ a, c ≠ ')' ∧ c ≠ '#' ∧ c ≠ '\n')
    (hb2c : ∀ c ∈ b2, c ≠ ')' ∧ c ≠ '#')
    (hst1 : ∀ c ∈ st1, c ≠ '\n' ∧ c ≠ '#')
    (hd1 : st1 ≠ "DONE".toList) (hc1 : st1 ≠ "CANCELLED".toList)
    (harch : st2 = "DONE".toList ∨ st2 = "CANCELLED".toList)
    (hd : ∀ c ∈ d, c ≠ '#' ∧ c ≠ '\n')
    (hx : ∀ c ∈ x, c ≠ '#') :
    compress_memory (taskSec a st1 d ++ '\n' :: taskSec b2 st2 x) =
      (1, taskSec a st1 (d ++ ['\n'])) := by
  unfold compress_memory
  rw [findMatches_eq_findFrom,
    findFrom_doc_pair_nonarch1 a st1 d b2 st2 x ha
      (fun c hc => ⟨(ha2 c hc).1, (ha2 c hc).2.1⟩)
      (fun hm => (hst1 _ hm).1 rfl) (fun c hc => (hst1 c hc).2) hd1 hc1
      (fun c hc => (hd c hc).1),
    findFrom_taskSec_arch b2 st2 x _ hb2 (fun c hc => (hb2c c hc).1) harch hx]
  rw [if_neg (by simp)]
  unfold removeMatches
  simp only [List.reverse_cons, List.reverse_nil, List.nil_append, List.foldl_cons,
    List.foldl_nil]
  unfold spliceOut
  rw [doc_pair_take a st1 d b2 st2 x, doc_pair_drop_all a st1 d b2 st2 x,
    List.append_nil, taskSec_snoc_nl]
  have hnd : NoNlNl (taskSec a st1 (d ++ ['\n'])) := by
    apply noNlNl_taskSec a st1 (d ++ ['\n']) (fun c hc => (ha2 c hc).2.2)
      (fun c hc => (hst1 c hc).1)
    apply noNlNl_cons_nl
    · exact noNlNl_append_left d ['\n'] (fun c hc => (hd c hc).2) noNlNl_singleton_nl
    · cases d with
      | nil => exact absurd rfl hdne
      | cons e d' =>
        rw [List.cons_append]
        simp only [List.head?_cons, ne_eq, Option.some_inj]
        intro he
        exact (hd e (List.mem_cons_self e d')).2 he
  rw [collapseNewlines_of_noDouble _ hnd]
  simp

theorem compress1_arch_arch (a st1 d b2 st2 x : List Char)
    (ha : a ≠ []) (hb2 : b2 ≠ [])
    (ha2 : ∀ c ∈ a, c ≠ ')' ∧ c ≠ '#')
    (hb2c : ∀ c ∈ b2, c ≠ ')' ∧ c ≠ '#')
    (harch1 : st1 = "DONE".toList ∨ st1 = "CANCELLED".toList)
    (harch2 : st2 = "DONE".toList ∨ st2 = "CANCELLED".toList)
    (hd : ∀ c ∈ d, c ≠ '\n')
    (hx : ∀ c ∈ x, c ≠ '#') :
    compress_memory (taskSec a st1 d ++ '\n' :: taskSec b2 st2 x) = (2, ['\n']) := by
  unfold compress_memory
  rw [findMatches_eq_findFrom,
    findFrom_doc_pair_arch1 a st1 d b2 st2 x ha (fun c hc => (ha2 c hc).1) harch1 hd,
    findFrom_taskSec_arch b2 st2 x _ hb2 (fun c hc => (hb2c c hc).1) harch2 hx]
  rw [if_neg (by simp)]
  unfold removeMatches
  simp only [List.reverse_cons, List.reverse_nil, List.nil_append,
    List.singleton_append, List.foldl_cons, List.foldl_nil]
  unfold spliceOut
  rw [doc_pair_take a st1 d b2 st2 x, doc_pair_drop_all a st1 d b2 st2 x,
    List.append_nil]
  rw [List.take_zero, List.nil_append]
  rw [show (taskSec a st1 d ++ ['\n']).drop (taskSec a st1 d).length =
    ['\n'] from List.drop_left _ _]
  rfl

theorem compress1_nonarch_nonarch (a st1 d b2 st2 x : List Char)
    (ha : a ≠ []) (hb2 : b2 ≠ [])
    (ha2 : ∀ c ∈ a, c ≠ ')' ∧ c ≠ '#')
    (hb2c : ∀ c ∈ b2, c ≠ ')' ∧ c ≠ '#')
    (hst1 : ∀ c ∈ st1, c ≠ '\n' ∧ c ≠ '#')
    (hd1 : st1 ≠ "DONE".toList) (hc1 : st1 ≠ "CANCELLED".toList)
    (hst2 : ∀ c ∈ st2, c ≠ '\n' ∧ c ≠ '#')
    (hd2 : st2 ≠ "DONE".toList) (hc2 : st2 ≠ "CANCELLED".toList)
    (hdh : ∀ c ∈ d, c ≠ '#')
    (hx : ∀ c ∈ x, c ≠ '#') :
    compress_memory (taskSec a st1 d ++ '\n' :: taskSec b2 st2 x) =
      (0, taskSec a st1 d ++ '\n' :: taskSec b2 st2 x) := by
  unfold compress_memory
  rw [findMatches_eq_findFrom,
    findFrom_doc_pair_nonarch1 a st1 d b2 st2 x ha ha2
      (fun hm => (hst1 _ hm).1 rfl) (fun c hc => (hst1 c hc).2) hd1 hc1 hdh,
    findFrom_taskSec_none b2 st2 x _ hb2 hb2c
      (fun hm => (hst2 _ hm).1 rfl) (fun c hc => (hst2 c hc).2) hd2 hc2 hx]
  rw [if_pos (by simp)]

theorem compress_nl_secP (b2 st2 x : List Char)
    (hb2 : b2 ≠ [])
    (hb2c : ∀ c ∈ b2, c ≠ ')' ∧ c ≠ '#')
    (hst2 : ∀ c ∈ st2, c ≠ '\n' ∧ c ≠ '#')
    (hd2 : st2 ≠ "DONE".toList) (hc2 : st2 ≠ "CANCELLED".toList)
    (hx : ∀ c ∈ x, c ≠ '#') :
    compress_memory ('\n' :: taskSec b2 st2 x) = (0, '\n' :: taskSec b2 st2 x) := by
  unfold compress_memory
  rw [findMatches_eq_findFrom,
    findFrom_cons_none 0 (matchCore_head_ne_hash _ (by decide)),
    findFrom_taskSec_none b2 st2 x _ hb2 hb2c
      (fun hm => (hst2 _ hm).1 rfl) (fun c hc => (hst2 c hc).2) hd2 hc2 hx]
  rw [if_pos (by simp)]

theorem compress_single_nonarch (a st b : List Char)
    (ha : a ≠ [])
    (ha2 : ∀ c ∈ a, c ≠ ')' ∧ c ≠ '#')
    (hst : ∀ c ∈ st, c ≠ '\n' ∧ c ≠ '#')
    (hd1 : st ≠ "DONE".toList) (hc1 : st ≠ "CANCELLED".toList)
    (hb : ∀ c ∈ b, c ≠ '#') :
    compress_memory (taskSec a st b) = (0, taskSec a st b) := by
  unfold compress_memory
  rw [findMatches_eq_findFrom,
    findFrom_taskSec_none a st b 0 ha ha2
      (fun hm => (hst _ hm).1 rfl) (fun c hc => (hst c hc).2) hd1 hc1 hb]
  rw [if_pos (by simp)]

/-- C5 amended: on a canonical two-section document (a DONE Active Task
followed by an IN PROGRESS Active Task, headers parenthesized, status
lines immediately after the headers, single-line bodies), one run of
compress_memory archives exactly the DONE section and leaves the
IN PROGRESS section byte-for-byte intact (the rewritten document is the
separator newline followed by the untouched IN PROGRESS section).  The
original claim's "for every document" fails because the final newline
collapse also rewrites runs of three-or-more newlines inside the
surviving section (see the counterexample). -/
theorem C5_archival_canonical_pair (a b2 d x : List Char)
    (ha : a ≠ []) (hb2 : b2 ≠ [])
    (ha2 : ∀ c ∈ a, c ≠ ')' ∧ c ≠ '#')
    (hb2c : ∀ c ∈ b2, c ≠ ')' ∧ c ≠ '#' ∧ c ≠ '\n')
    (hd : ∀ c ∈ d, c ≠ '\n')
    (hx : ∀ c ∈ x, c ≠ '#' ∧ c ≠ '\n') :
    compress_memory (taskSec a ("DONE".toList) d ++
        '\n' :: taskSec b2 ("IN PROGRESS".toList) x) =
      (1, '\n' :: taskSec b2 ("IN PROGRESS".toList) x) := by
  unfold compress_memory
  rw [findMatches_two_sections a b2 d x ha hb2 ha2
    (fun c hc => ⟨(hb2c c hc).1, (hb2c c hc).2.1⟩) hd (fun c hc => (hx c hc).1)]
  rw [if_neg (by simp)]
  unfold removeMatches
  simp only [List.reverse_cons, List.reverse_nil, List.nil_append, List.foldl_cons,
    List.foldl_nil]
  unfold spliceOut
  rw [List.take_zero, List.nil_append]
  have hdrope : (taskSec a ("DONE".toList) d ++
      '\n' :: taskSec b2 ("IN PROGRESS".toList) x).drop (taskSec a ("DONE".toList) d).length =
      '\n' :: taskSec b2 ("IN PROGRESS".toList) x := List.drop_left _ _
  rw [hdrope]
  have hnd : NoNlNl ('\n' :: taskSec b2 ("IN PROGRESS".toList) x) := by
    apply noNlNl_cons_nl
    · exact noNlNl_taskSec b2 _ x (fun c hc => (hb2c c hc).2.2) (by decide)
        (noNlNl_nl_cons_of_nlFree x (fun c hc => (hx c hc).2))
    · rw [taskSec_cons]
      simp
  rw [collapseNewlines_of_noDouble _ hnd]
  simp

/-- C5 amended, witnessed at a concrete canonical pair. -/
theorem C5_archival_canonical_pair_witness :
    ("a".toList ≠ [] ∧ "b".toList ≠ []) ∧
    compress_memory (taskSec ("a".toList) ("DONE".toList) ("d".toList) ++
        '\n' :: taskSec ("b".toList) ("IN PROGRESS".toList) ("x".toList)) =
      (1, '\n' :: taskSec ("b".toList) ("IN PROGRESS".toList) ("x".toList)) :=
  ⟨⟨by decide, by decide⟩,
    C5_archival_canonical_pair ("a".toList) ("b".toList) ("d".toList) ("x".toList)
      (by decide) (by decide) (by decide) (by decide) (by decide) (by decide)⟩

/-- C6 amended: on canonical two-Active-Task documents (parenthesized
headers, status line immediately after the header, single-line non-empty
first body), compress_memory is idempotent: an immediate second run
archives 0 and leaves the document unchanged, whichever of the two
status words are DONE/CANCELLED or anything else.  The original claim's
"for every document" fails when `## Active Task (` occurs mid-line, as
removal can then splice a new archivable match into existence (see the
counterexample). -/
theorem C6_idempotent_canonical_pair (a st1 d b2 st2 x : List Char)
    (ha : a ≠ []) (hb2 : b2 ≠ []) (hdne : d ≠ [])
    (ha2 : ∀ c ∈ a, c ≠ ')' ∧ c ≠ '#' ∧ c ≠ '\n')
    (hb2c : ∀ c ∈ b2, c ≠ ')' ∧ c ≠ '#' ∧ c ≠ '\n')
    (hst1 : ∀ c ∈ st1, c ≠ '\n' ∧ c ≠ '#')
    (hst2 : ∀ c ∈ st2, c ≠ '\n' ∧ c ≠ '#')
    (hd : ∀ c ∈ d, c ≠ '#' ∧ c ≠ '\n')
    (hx : ∀ c ∈ x, c ≠ '#' ∧ c ≠ '\n') :
    (compress_memory (compress_memory
      (taskSec a st1 d ++ '\n' :: taskSec b2 st2 x)).2).1 = 0 ∧
    (compress_memory (compress_memory
      (taskSec a st1 d ++ '\n' :: taskSec b2 st2 x)).2).2 =
      (compress_memory (taskSec a st1 d ++ '\n' :: taskSec b2 st2 x)).2 := by
  have ha2' : ∀ c ∈ a, c ≠ ')' ∧ c ≠ '#' := fun c hc => ⟨(ha2 c hc).1, (ha2 c hc).2.1⟩
  have hb2c' : ∀ c ∈ b2, c ≠ ')' ∧ c ≠ '#' := fun c hc => ⟨(hb2c c hc).1, (hb2c c hc).2.1⟩
  by_cases h1 : st1 = "DONE".toList ∨ st1 = "CANCELLED".toList
  · by_cases h2 : st2 = "DONE".toList ∨ st2 = "CANCELLED".toList
    · rw [compress1_arch_arch a st1 d b2 st2 x ha hb2 ha2' hb2c' h1 h2
        (fun c hc => (hd c hc).2) (fun c hc => (hx c hc).1)]
      exact ⟨by decide, by decide⟩
    · push_neg at h2
      rw [compress1_arch_nonarch a st1 d b2 st2 x ha hb2 ha2' hb2c h1 hst2
        h2.1 h2.2 (fun c hc => (hd c hc).2) hx]
      rw [compress_nl_secP b2 st2 x hb2 hb2c' hst2 h2.1 h2.2
        (fun c hc => (hx c hc).1)]
      exact ⟨rfl, rfl⟩
  · push_neg at h1
    by_cases h2 : st2 = "DONE".toList ∨ st2 = "CANCELLED".toList
    · rw [compress1_nonarch_arch a st1 d b2 st2 x ha hb2 hdne ha2 hb2c' hst1
        h1.1 h1.2 h2 hd (fun c hc => (hx c hc).1)]
      rw [compress_single_nonarch a st1 (d ++ ['\n']) ha ha2' hst1 h1.1 h1.2 ?hdnl]
      case hdnl =>
        intro c hc
        rcases List.mem_append.mp hc with hc | hc
        · exact (hd c hc).1
        · simp only [List.mem_singleton] at hc
          rw [hc]
          decide
      exact ⟨rfl, rfl⟩
    · push_neg at h2
      rw [compress1_nonarch_nonarch a st1 d b2 st2 x ha hb2 ha2' hb2c' hst1
        h1.1 h1.2 hst2 h2.1 h2.2 (fun c hc => (hd c hc).1) (fun c hc => (hx c hc).1)]
      rw [compress1_nonarch_nonarch a st1 d b2 st2 x ha hb2 ha2' hb2c' hst1
        h1.1 h1.2 hst2 h2.1 h2.2 (fun c hc => (hd c hc).1) (fun c hc => (hx c hc).1)]
      exact ⟨rfl, rfl⟩

/-- C6 amended, witnessed at a concrete canonical pair with a DONE and
an IN PROGRESS section. -/
theorem C6_idempotent_canonical_pair_witness :
    ("a".toList ≠ [] ∧ "b".toList ≠ [] ∧ "d".toList ≠ []) ∧
    ((compress_memory (compress_memory
        (taskSec ("a".toList) ("DONE".toList) ("d".toList) ++
          '\n' :: taskSec ("b".toList) ("IN PROGRESS".toList) ("x".toList))).2).1 = 0 ∧
      (compress_memory (compress_memory
        (taskSec ("a".toList) ("DONE".toList) ("d".toList) ++
          '\n' :: taskSec ("b".toList) ("IN PROGRESS".toList) ("x".toList))).2).2 =
        (compress_memory
          (taskSec ("a".toList) ("DONE".toList) ("d".toList) ++
            '\n' :: taskSec ("b".toList) ("IN PROGRESS".toList) ("x".toList))).2) :=
  ⟨⟨by decide, by decide, by decide⟩,
    C6_idempotent_canonical_pair ("a".toList) ("DONE".toList) ("d".toList)
      ("b".toList) ("IN PROGRESS".toList) ("x".toList)
      (by decide) (by decide) (by decide) (by decide) (by decide) (by decide)
      (by decide) (by decide) (by decide)⟩

/-- C7 amended: a canonical Active Task section (parenthesized header
argument) is archivable iff the line immediately following the header
line is `**Status:** DONE` or `**Status:** CANCELLED`, exactly and
case-sensitively.  The original claim's "first non-empty content line"
is wrong: a blank line between the header and the status line defeats
the pattern (see the counterexample). -/
theorem C7_archivable_iff_adjacent_status (a st b : List Char) (ha : a ≠ [])
    (ha2 : ∀ c ∈ a, c ≠ ')' ∧ c ≠ '#')
    (hst : ∀ c ∈ st, c ≠ '\n' ∧ c ≠ '#')
    (hb : ∀ c ∈ b, c ≠ '#') :
    ((compress_memory (taskSec a st b)).1 = 1 ↔
      (st = "DONE".toList ∨ st = "CANCELLED".toList)) := by
  by_cases hdone : st = "DONE".toList
  · unfold compress_memory
    rw [findMatches_eq_findFrom,
      findFrom_taskSec_arch a st b 0 ha (fun c hc => (ha2 c hc).1) (Or.inl hdone) hb]
    simp [hdone]
  · by_cases hcanc : st = "CANCELLED".toList
    · unfold compress_memory
      rw [findMatches_eq_findFrom,
        findFrom_taskSec_arch a st b 0 ha (fun c hc => (ha2 c hc).1) (Or.inr hcanc) hb]
      simp [hcanc]
    · unfold compress_memory
      rw [findMatches_eq_findFrom,
        findFrom_taskSec_none a st b 0 ha ha2
          (fun hm => (hst _ hm).1 rfl) (fun c hc => (hst c hc).2) hdone hcanc hb]
      simp only [List.isEmpty_nil, if_true, List.length_nil]
      constructor
      · intro h
        exact absurd h (by simp)
      · intro h
        exact absurd h (by simpa using ⟨hdone, hcanc⟩)

/-- C7 amended, witnessed with status words DONE (archived) and exact
case-sensitivity via the iff at a concrete section. -/
theorem C7_archivable_iff_adjacent_status_witness :
    ("x".toList ≠ []) ∧
    ((compress_memory (taskSec ("x".toList) ("DONE".toList) ("b".toList))).1 = 1 ↔
      ("DONE".toList = "DONE".toList ∨ "DONE".toList = "CANCELLED".toList)) :=
  ⟨by decide,
    C7_archivable_iff_adjacent_status ("x".toList) ("DONE".toList) ("b".toList)
      (by decide) (by decide) (by decide) (by decide)⟩

end Mobyclaw
